import Mathlib

/-!
# Verification of the `ar_archive_writer` archive-assembly engine

This file gives a shallow embedding, in Lean 4, of the archive-writing code of
the `ar_archive_writer` crate (src/archive_writer.rs, src/mangler.rs,
src/alignment.rs, src/archive.rs, src/math_extras.rs) and proves or refutes a
collection of claims about it.

Modelling conventions:
* Machine integers (`u64`, `u32`, `usize`) are modelled as `Nat`; the code's
  explicit truncations (`% 1000000`, `% 10^12`) are kept, and the two places
  where the writer can actually panic on valid input (the `assert!` on thin
  BSD-like archives, and the `usize -> u16` member index conversion via
  `try_into().unwrap()`) are modelled as a panic (`Option.none`).
* Byte buffers are `List Nat`; strings are `List Char`; member names are
  treated as ASCII, for which Rust's byte indices and lengths agree with
  character indices and lengths.
* The writer only ever appends to its `Cursor` buffers, so a cursor's
  `stream_position()` is modelled as the current length of the buffer.
-/

namespace ArArchiveWriter

/-! ## ARM64EC name mangler (src/mangler.rs) -/

/-- The infix `"$$h"` used by the ARM64EC mangling scheme. -/
def dollarH : List Char := ['$', '$', 'h']

/-- Model of Rust `str::find` with a substring pattern: the index of the first
occurrence of `pat` in `l`, if any. -/
def findSub (pat : List Char) : List Char → Option Nat
  | [] => if pat.isPrefixOf [] then some 0 else none
  | c :: t => if pat.isPrefixOf (c :: t) then some 0 else (findSub pat t).map (· + 1)

/-- Model of Rust `str::contains` with a substring pattern. -/
def containsSub (pat l : List Char) : Bool := (findSub pat l).isSome

/-- Model of Rust `str::split_once`: splits around the first occurrence of
`pat`. -/
def splitOnce (l pat : List Char) : Option (List Char × List Char) :=
  (findSub pat l).map fun i => (l.take i, l.drop (i + pat.length))

/-- The insertion index used by `get_arm64ec_mangled_function_name` for C++
(`'?'`-prefixed) names: after the first `"@@"` that is not also the start of
`"@@@"`; failing that, after the first `'@'`; failing that, the end. -/
def mangle_insert_idx (name : List Char) : Nat :=
  match findSub ['@', '@'] name with
  | some two_at_signs_idx =>
    if some two_at_signs_idx ≠ findSub ['@', '@', '@'] name then
      two_at_signs_idx + 2
    else
      match findSub ['@'] name with
      | some idx => idx + 1
      | none => name.length
  | none =>
    match findSub ['@'] name with
    | some idx => idx + 1
    | none => name.length

/-- `get_arm64ec_mangled_function_name` from src/mangler.rs. The Rust function
panics on the empty string (`name.chars().next().unwrap()`); the model returns
`none` there and all theorems quantify over non-empty names only. -/
def get_arm64ec_mangled_function_name (name : List Char) : Option (List Char) :=
  match name with
  | [] => none
  | first_char :: _ =>
    let is_cpp_fn := first_char == '?'
    if is_cpp_fn && containsSub dollarH name then none
    else if !is_cpp_fn && first_char == '#' then none
    else
      let insert_idx := if is_cpp_fn then mangle_insert_idx name else 0
      let pre := if is_cpp_fn then dollarH else ['#']
      some (name.take insert_idx ++ pre ++ name.drop insert_idx)

/-- `get_arm64ec_demangled_function_name` from src/mangler.rs. The Rust
function panics on the empty string; the model returns `none` there. -/
def get_arm64ec_demangled_function_name (name : List Char) : Option (List Char) :=
  match name with
  | [] => none
  | first_char :: rest =>
    if first_char == '#' then some rest
    else if first_char != '?' then none
    else
      match splitOnce name dollarH with
      | some (first, second) => if second ≠ [] then some (first ++ second) else none
      | none => none

/-! ### Substring-search lemmas -/

theorem findSub_cons (pat : List Char) (c : Char) (t : List Char) :
    findSub pat (c :: t) =
      if pat.isPrefixOf (c :: t) then some 0 else (findSub pat t).map (· + 1) := rfl

theorem isPrefixOf_eq_true_iff (p l : List Char) :
    p.isPrefixOf l = true ↔ ∃ t, l = p ++ t := by
  induction p generalizing l with
  | nil => simp [List.isPrefixOf]
  | cons a as ih =>
    cases l with
    | nil => simp [List.isPrefixOf]
    | cons b bs =>
      simp only [List.isPrefixOf, Bool.and_eq_true, beq_iff_eq, ih]
      constructor
      · rintro ⟨rfl, t, rfl⟩; exact ⟨t, rfl⟩
      · rintro ⟨t, h⟩
        injection h with h1 h2
        exact ⟨h1.symm, t, h2⟩

theorem findSub_some_decomp {pat l : List Char} {i : Nat}
    (h : findSub pat l = some i) :
    pat.isPrefixOf (l.drop i) = true ∧ i + pat.length ≤ l.length := by
  induction l generalizing i with
  | nil =>
    unfold findSub at h
    split at h
    · rename_i hp
      simp only [Option.some.injEq] at h
      subst h
      refine ⟨hp, ?_⟩
      rw [isPrefixOf_eq_true_iff] at hp
      obtain ⟨t, ht⟩ := hp
      have hpn : pat = [] := (List.append_eq_nil.mp ht.symm).1
      simp [hpn]
    · exact absurd h (by simp)
  | cons c t ih =>
    rw [findSub_cons] at h
    split at h
    · rename_i hp
      simp only [Option.some.injEq] at h
      subst h
      refine ⟨by simpa using hp, ?_⟩
      rw [isPrefixOf_eq_true_iff] at hp
      obtain ⟨u, hu⟩ := hp
      simp [hu]
    · cases hfind : findSub pat t with
      | none => rw [hfind] at h; simp at h
      | some j =>
        rw [hfind] at h
        simp only [Option.map_some', Option.some.injEq] at h
        subst h
        obtain ⟨h1, h2⟩ := ih hfind
        refine ⟨by simpa using h1, ?_⟩
        simp only [List.length_cons]
        omega

theorem findSub_decomp {pat l : List Char} {i : Nat}
    (h : findSub pat l = some i) :
    l = l.take i ++ pat ++ l.drop (i + pat.length) := by
  obtain ⟨h1, _⟩ := findSub_some_decomp h
  rw [isPrefixOf_eq_true_iff] at h1
  obtain ⟨t, ht⟩ := h1
  conv_lhs => rw [← List.take_append_drop i l]
  rw [List.append_assoc]
  congr 1
  have hdd : l.drop (i + pat.length) = (l.drop i).drop pat.length := by
    rw [List.drop_drop, Nat.add_comm]
  rw [hdd, ht, List.drop_left]

theorem findSub_of_decomp {pat a b l : List Char} (h : l = a ++ pat ++ b) :
    ∃ i, i ≤ a.length ∧ findSub pat l = some i := by
  subst h
  induction a with
  | nil =>
    refine ⟨0, Nat.le_refl _, ?_⟩
    have hp : pat.isPrefixOf (([] : List Char) ++ pat ++ b) = true := by
      rw [isPrefixOf_eq_true_iff]; exact ⟨b, by simp⟩
    cases heq : ([] : List Char) ++ pat ++ b with
    | nil => rw [findSub, ← heq, if_pos hp]
    | cons c t => rw [findSub, ← heq, if_pos hp]
  | cons x xs ih =>
    obtain ⟨i, hle, hfind⟩ := ih
    simp only [List.cons_append]
    by_cases hp : pat.isPrefixOf (x :: (xs ++ pat ++ b)) = true
    · exact ⟨0, Nat.zero_le _, by rw [findSub_cons, if_pos hp]⟩
    · refine ⟨i + 1, by simp only [List.length_cons]; omega, ?_⟩
      rw [findSub_cons, if_neg hp]
      simp only [List.append_assoc] at hfind ⊢
      rw [hfind]
      rfl

theorem containsSub_iff (pat l : List Char) :
    containsSub pat l = true ↔ ∃ a b, l = a ++ pat ++ b := by
  unfold containsSub
  constructor
  · intro h
    cases hfind : findSub pat l with
    | none => rw [hfind] at h; simp at h
    | some i =>
      exact ⟨l.take i, l.drop (i + pat.length), findSub_decomp hfind⟩
  · rintro ⟨a, b, h⟩
    obtain ⟨i, _, hfind⟩ := findSub_of_decomp h
    simp [hfind]

theorem dollarH_isPrefixOf_iff (l : List Char) :
    dollarH.isPrefixOf l = true ↔ ∃ t, l = '$' :: '$' :: 'h' :: t := by
  rw [isPrefixOf_eq_true_iff]
  exact Iff.rfl

/-- The first occurrence of `"$$h"` in `a ++ "$$h" ++ b` is at `a.length`,
provided `a ++ b` contains no `"$$h"`: inserting the infix cannot create an
earlier occurrence, even one overlapping the seam. -/
theorem findSub_insert_dollarH (a b : List Char)
    (h : findSub dollarH (a ++ b) = none) :
    findSub dollarH (a ++ (dollarH ++ b)) = some a.length := by
  induction a with
  | nil =>
    have hp : dollarH.isPrefixOf (([] : List Char) ++ (dollarH ++ b)) = true := by
      rw [isPrefixOf_eq_true_iff]; exact ⟨b, by simp⟩
    cases heq : ([] : List Char) ++ (dollarH ++ b) with
    | nil => simp [dollarH] at heq
    | cons c t => rw [findSub, ← heq, if_pos hp]; rfl
  | cons x xs ih =>
    have hx : findSub dollarH (xs ++ b) = none := by
      rw [List.cons_append, findSub_cons] at h
      split at h
      · exact absurd h (by simp)
      · cases hfind : findSub dollarH (xs ++ b) with
        | none => rfl
        | some j => rw [hfind] at h; simp at h
    have hnp : ¬ dollarH.isPrefixOf (x :: (xs ++ (dollarH ++ b))) = true := by
      rw [dollarH_isPrefixOf_iff]
      rintro ⟨t, ht⟩
      -- A prefix occurrence at the seam would force characters of the
      -- inserted "$$h" to be '$','$','h' in impossible positions, or put a
      -- full "$$h" inside `x :: xs ++ b`, contradicting `h`.
      injection ht with hx1 ht
      match xs, ht with
      | [], ht =>
        rw [List.nil_append, show dollarH ++ b = '$' :: '$' :: 'h' :: b from rfl] at ht
        simp at ht
      | y :: ys, ht =>
        rw [List.cons_append] at ht
        injection ht with hy ht
        match ys, ht with
        | [], ht =>
          rw [List.nil_append, show dollarH ++ b = '$' :: '$' :: 'h' :: b from rfl] at ht
          simp at ht
        | z :: zs, ht =>
          rw [List.cons_append] at ht
          injection ht with hz ht
          rw [List.cons_append, findSub_cons] at h
          have hpre : dollarH.isPrefixOf (x :: ((y :: z :: zs) ++ b)) = true := by
            rw [dollarH_isPrefixOf_iff]
            exact ⟨zs ++ b, by rw [hx1, hy, hz]; rfl⟩
          rw [if_pos hpre] at h
          exact absurd h (by simp)
    rw [List.cons_append, findSub_cons, if_neg hnp, ih hx]
    rfl

/-- If some occurrence of `pat` in `l` has a non-empty remainder after it,
then the first occurrence does too. -/
theorem splitOnce_second_ne_nil {pat a b l : List Char}
    (h : l = a ++ pat ++ b) (hb : b ≠ []) :
    ∃ p q, splitOnce l pat = some (p, q) ∧ q ≠ [] := by
  obtain ⟨i, hle, hfind⟩ := findSub_of_decomp h
  refine ⟨l.take i, l.drop (i + pat.length), by simp [splitOnce, hfind], ?_⟩
  intro hnil
  have hlen : l.length = a.length + (pat.length + b.length) := by
    subst h; simp
  have hd : l.length ≤ i + pat.length := by
    have hlen2 := congrArg List.length hnil
    simp only [List.length_drop, List.length_nil] at hlen2
    omega
  have hb' : 0 < b.length := List.length_pos.mpr hb
  omega

/-! ### Branch equations for the two mangler functions -/

theorem mangle_cpp_contains {rest : List Char}
    (h : containsSub dollarH ('?' :: rest) = true) :
    get_arm64ec_mangled_function_name ('?' :: rest) = none := by
  simp [get_arm64ec_mangled_function_name, h]

theorem mangle_cpp_clean {rest : List Char}
    (h : containsSub dollarH ('?' :: rest) = false) :
    get_arm64ec_mangled_function_name ('?' :: rest) =
      some (('?' :: rest).take (mangle_insert_idx ('?' :: rest)) ++ dollarH ++
        ('?' :: rest).drop (mangle_insert_idx ('?' :: rest))) := by
  simp [get_arm64ec_mangled_function_name, h]

theorem mangle_hash {first : Char} {rest : List Char}
    (h1 : (first == '?') = false) (h2 : (first == '#') = true) :
    get_arm64ec_mangled_function_name (first :: rest) = none := by
  simp [get_arm64ec_mangled_function_name, h1, h2]

theorem mangle_plain {first : Char} {rest : List Char}
    (h1 : (first == '?') = false) (h2 : (first == '#') = false) :
    get_arm64ec_mangled_function_name (first :: rest) = some ('#' :: first :: rest) := by
  simp [get_arm64ec_mangled_function_name, h1, h2]

theorem demangle_hash {first : Char} {rest : List Char} (h : (first == '#') = true) :
    get_arm64ec_demangled_function_name (first :: rest) = some rest := by
  simp [get_arm64ec_demangled_function_name, h]

theorem demangle_other {first : Char} {rest : List Char}
    (h1 : (first == '#') = false) (h2 : (first == '?') = false) :
    get_arm64ec_demangled_function_name (first :: rest) = none := by
  simp only [get_arm64ec_demangled_function_name, h1, Bool.false_eq_true, if_false]
  rw [show (first != '?') = !(first == '?') from rfl, h2]
  simp

theorem demangle_q (rest : List Char) :
    get_arm64ec_demangled_function_name ('?' :: rest) =
      match splitOnce ('?' :: rest) dollarH with
      | some (first, second) => if second ≠ [] then some (first ++ second) else none
      | none => none := by
  simp [get_arm64ec_demangled_function_name]

/-- **C6 (confirmed). ARM64EC mangler laws** (src/mangler.rs): for every
non-empty name `x`: (1) if mangling and then demangling both succeed the
result is `x` again; (2) `get_arm64ec_mangled_function_name` returns `none`
exactly for names starting with `'?'` that already contain `"$$h"` and for
names not starting with `'?'` that start with `'#'`; (3)
`get_arm64ec_demangled_function_name` returns `none` unless the name starts
with `'#'`, or starts with `'?'` and contains `"$$h"` with a non-empty
remainder after it. -/
theorem c6_mangler_laws (x : List Char) (hx : x ≠ []) :
    (∀ y z, get_arm64ec_mangled_function_name x = some y →
      get_arm64ec_demangled_function_name y = some z → z = x) ∧
    (get_arm64ec_mangled_function_name x = none ↔
      ((x.head hx = '?' ∧ ∃ a b, x = a ++ dollarH ++ b) ∨
       (x.head hx ≠ '?' ∧ x.head hx = '#'))) ∧
    (get_arm64ec_demangled_function_name x = none ↔
      ¬ (x.head hx = '#' ∨
         (x.head hx = '?' ∧ ∃ a b, x = a ++ dollarH ++ b ∧ b ≠ []))) := by
  obtain ⟨first, rest, rfl⟩ := List.exists_cons_of_ne_nil hx
  simp only [List.head_cons]
  refine ⟨?_, ?_, ?_⟩
  · -- (1) round trip
    intro y z hm hd
    by_cases hcpp : first = '?'
    · subst hcpp
      by_cases hcont : containsSub dollarH ('?' :: rest) = true
      · rw [mangle_cpp_contains hcont] at hm
        exact absurd hm (by simp)
      · rw [Bool.not_eq_true] at hcont
        rw [mangle_cpp_clean hcont] at hm
        simp only [Option.some.injEq] at hm
        set i := mangle_insert_idx ('?' :: rest) with hidef
        set A := ('?' :: rest).take i with hA
        set B := ('?' :: rest).drop i with hB
        have hy : y = A ++ (dollarH ++ B) := by rw [← hm, List.append_assoc]
        have hsplit : A ++ B = '?' :: rest := List.take_append_drop i ('?' :: rest)
        have hfnone : findSub dollarH ('?' :: rest) = none := by
          unfold containsSub at hcont
          cases hf : findSub dollarH ('?' :: rest) with
          | none => rfl
          | some k => rw [hf] at hcont; simp at hcont
        have hflat : findSub dollarH (A ++ (dollarH ++ B)) = some A.length :=
          findSub_insert_dollarH A B (by rw [hsplit]; exact hfnone)
        have hso : splitOnce (A ++ (dollarH ++ B)) dollarH = some (A, B) := by
          unfold splitOnce
          rw [hflat]
          simp only [Option.map_some', Option.some.injEq, Prod.mk.injEq]
          constructor
          · rw [List.take_left]
          · rw [← List.append_assoc,
              show A.length + dollarH.length = (A ++ dollarH).length from
                (List.length_append _ _).symm,
              List.drop_left]
        cases hAc : A with
        | nil =>
          -- y would start with '$': demangling fails, contradicting hd
          exfalso
          rw [hAc, List.nil_append] at hy
          rw [hy] at hd
          rw [show dollarH ++ B = '$' :: ('$' :: 'h' :: B) from rfl] at hd
          rw [demangle_other (by decide) (by decide)] at hd
          exact absurd hd (by simp)
        | cons c ctail =>
          have hc : c = '?' := by
            match i, hAc with
            | 0, hAc => rw [hA] at hAc; simp at hAc
            | j + 1, hAc =>
              rw [hA, List.take_succ_cons] at hAc
              exact (List.cons.injEq _ _ _ _ ▸ hAc).1.symm
          subst hc
          rw [hAc] at hy
          simp only [List.cons_append] at hy
          rw [hy, demangle_q] at hd
          have hso' : splitOnce ('?' :: (ctail ++ (dollarH ++ B))) dollarH = some (A, B) := by
            rw [← hso, hAc]
            simp only [List.cons_append]
          rw [hso'] at hd
          cases hBc : B with
          | nil =>
            rw [hBc] at hd
            simp at hd
          | cons d dtail =>
            rw [hBc] at hd
            simp only [ne_eq, reduceCtorEq, not_false_eq_true, if_true,
              Option.some.injEq] at hd
            rw [← hd, ← hBc, hsplit]
    · by_cases hhash : first = '#'
      · rw [mangle_hash (by simp [hcpp]) (by simp [hhash])] at hm
        exact absurd hm (by simp)
      · rw [mangle_plain (by simp [hcpp]) (by simp [hhash])] at hm
        simp only [Option.some.injEq] at hm
        rw [← hm, demangle_hash (by decide)] at hd
        simp only [Option.some.injEq] at hd
        exact hd.symm
  · -- (2) when mangling returns none
    by_cases hcpp : first = '?'
    · subst hcpp
      by_cases hcont : containsSub dollarH ('?' :: rest) = true
      · rw [mangle_cpp_contains hcont]
        have hex := (containsSub_iff dollarH ('?' :: rest)).mp hcont
        constructor
        · intro _; exact Or.inl ⟨rfl, hex⟩
        · intro _; rfl
      · rw [Bool.not_eq_true] at hcont
        rw [mangle_cpp_clean hcont]
        constructor
        · intro h; exact absurd h (by simp)
        · rintro (⟨-, a, b, hab⟩ | ⟨hne, -⟩)
          · rw [(containsSub_iff dollarH ('?' :: rest)).mpr ⟨a, b, hab⟩] at hcont
            exact absurd hcont (by simp)
          · exact absurd rfl hne
    · by_cases hhash : first = '#'
      · rw [mangle_hash (by simp [hcpp]) (by simp [hhash])]
        simp [hcpp, hhash]
      · rw [mangle_plain (by simp [hcpp]) (by simp [hhash])]
        simp [hcpp, hhash]
  · -- (3) when demangling returns none
    by_cases hhash : first = '#'
    · rw [demangle_hash (by simp [hhash])]
      simp [hhash]
    · by_cases hcpp : first = '?'
      · subst hcpp
        rw [demangle_q]
        cases hso : splitOnce ('?' :: rest) dollarH with
        | none =>
          constructor
          · intro _
            rintro (h1 | ⟨-, a, b, hab, hb⟩)
            · exact hhash h1
            · obtain ⟨p, q, hpq, -⟩ := splitOnce_second_ne_nil hab hb
              rw [hso] at hpq
              exact absurd hpq (by simp)
          · intro _; rfl
        | some pq =>
          obtain ⟨p, q⟩ := pq
          by_cases hq : q = []
          · subst hq
            show (if ([] : List Char) ≠ [] then some (p ++ []) else none) = none ↔
              ¬ ('?' = '#' ∨ ('?' = '?' ∧ ∃ a b, '?' :: rest = a ++ dollarH ++ b ∧ b ≠ []))
            rw [if_neg (fun hcon => hcon rfl)]
            constructor
            · intro _
              rintro (h1 | ⟨-, a, b, hab, hb⟩)
              · exact hhash h1
              · obtain ⟨p', q', hpq, hq'⟩ := splitOnce_second_ne_nil hab hb
                rw [hso] at hpq
                simp only [Option.some.injEq, Prod.mk.injEq] at hpq
                exact hq' hpq.2.symm
            · intro _; rfl
          · show (if q ≠ [] then some (p ++ q) else none) = none ↔
              ¬ ('?' = '#' ∨ ('?' = '?' ∧ ∃ a b, '?' :: rest = a ++ dollarH ++ b ∧ b ≠ []))
            rw [if_pos hq]
            have hX : ('?' = '#' ∨
                ('?' = '?' ∧ ∃ a b, '?' :: rest = a ++ dollarH ++ b ∧ b ≠ [])) := by
              right
              refine ⟨rfl, ?_⟩
              unfold splitOnce at hso
              cases hf : findSub dollarH ('?' :: rest) with
              | none => rw [hf] at hso; exact absurd hso (by simp)
              | some j =>
                rw [hf] at hso
                simp only [Option.map_some', Option.some.injEq, Prod.mk.injEq] at hso
                refine ⟨('?' :: rest).take j, ('?' :: rest).drop (j + dollarH.length),
                  findSub_decomp hf, ?_⟩
                rw [hso.2]
                exact hq
            constructor
            · intro hcon; exact absurd hcon (by simp)
            · intro hnx; exact absurd hX hnx
      · rw [demangle_other (by simp [hhash]) (by simp [hcpp])]
        simp [hhash, hcpp]

/-- Concrete instantiation of `c6_mangler_laws` at the C++ name `"?f@@g"`. -/
theorem c6_mangler_laws_witness :
    ((['?', 'f', '@', '@', 'g'] : List Char) ≠ []) ∧
    ((∀ y z, get_arm64ec_mangled_function_name ['?', 'f', '@', '@', 'g'] = some y →
      get_arm64ec_demangled_function_name y = some z → z = ['?', 'f', '@', '@', 'g']) ∧
    (get_arm64ec_mangled_function_name ['?', 'f', '@', '@', 'g'] = none ↔
      ((['?', 'f', '@', '@', 'g'].head (by decide) = '?' ∧
        ∃ a b, ['?', 'f', '@', '@', 'g'] = a ++ dollarH ++ b) ∨
       (['?', 'f', '@', '@', 'g'].head (by decide) ≠ '?' ∧
        ['?', 'f', '@', '@', 'g'].head (by decide) = '#'))) ∧
    (get_arm64ec_demangled_function_name ['?', 'f', '@', '@', 'g'] = none ↔
      ¬ (['?', 'f', '@', '@', 'g'].head (by decide) = '#' ∨
         (['?', 'f', '@', '@', 'g'].head (by decide) = '?' ∧
          ∃ a b, ['?', 'f', '@', '@', 'g'] = a ++ dollarH ++ b ∧ b ≠ [])))) :=
  ⟨by decide, c6_mangler_laws ['?', 'f', '@', '@', 'g'] (by decide)⟩

/-! ## Archive data model (src/archive.rs) -/

/-- Archive bytes: each entry is one byte value. -/
abbrev Bytes := List Nat

/-- `ArchiveKind` from src/archive.rs. -/
inductive ArchiveKind where
  | Gnu
  | Gnu64
  | Bsd
  | Darwin
  | Darwin64
  | Coff
  | AixBig
deriving DecidableEq

/-- `MAX_MEMBER_SIZE` from src/archive.rs: the size field is 10 decimal digits
long. -/
def MAX_MEMBER_SIZE : Nat := 9999999999

/-- `is_darwin` from src/archive_writer.rs. -/
def is_darwin : ArchiveKind → Bool
  | .Darwin | .Darwin64 => true
  | _ => false

/-- `is_aix_big_archive` from src/archive_writer.rs. -/
def is_aix_big_archive (kind : ArchiveKind) : Bool := kind == .AixBig

/-- `is_coff_archive` from src/archive_writer.rs. -/
def is_coff_archive (kind : ArchiveKind) : Bool := kind == .Coff

/-- `is_bsd_like` from src/archive_writer.rs. -/
def is_bsd_like : ArchiveKind → Bool
  | .Gnu | .Gnu64 | .AixBig | .Coff => false
  | .Bsd | .Darwin | .Darwin64 => true

/-- `is_64bit_kind` from src/archive_writer.rs. -/
def is_64bit_kind : ArchiveKind → Bool
  | .Gnu | .Bsd | .Darwin | .Coff => false
  | .AixBig | .Darwin64 | .Gnu64 => true

/-! ## Alignment helpers (src/alignment.rs, src/math_extras.rs) -/

/-- `align_to` from src/alignment.rs: `(size + align - 1) & !(align - 1)` on
`u64`. Every call site passes a power-of-two alignment (2, 8, or the
power-of-two XCOFF member alignment asserted by `align_to_power_of2`), for
which the bit mask rounds `size + align - 1` down to the previous multiple of
`align`, as written here. -/
def align_to (size align : Nat) : Nat := (size + align - 1) / align * align

/-- `offset_to_alignment` from src/alignment.rs. -/
def offset_to_alignment (value alignment : Nat) : Nat :=
  align_to value alignment - value

/-- `align_to_power_of2` from src/math_extras.rs; the Rust function asserts
`align` is a power of two and applies the same mask as `align_to`. -/
def align_to_power_of2 (value align : Nat) : Nat :=
  (value + align - 1) / align * align

/-! ## ASCII number formatting

Rust's `write!("{:<W}", v)` renders `v` in decimal (`{:<Wo}`: octal) and pads
with spaces on the right up to width `W`, never truncating. The digit
functions take explicit fuel so that they reduce inside the kernel. -/

/-- Decimal digits, most significant first; `fuel` bounds the recursion. -/
def natDecAux : Nat → Nat → List Char
  | 0, _ => []
  | fuel + 1, n =>
    if n < 10 then [Nat.digitChar n]
    else natDecAux fuel (n / 10) ++ [Nat.digitChar (n % 10)]

/-- Decimal rendering of `n` (e.g. `0 ↦ "0"`), as Rust's `{}` format. -/
def natDec (n : Nat) : List Char := natDecAux (n + 1) n

/-- Octal digits, most significant first; `fuel` bounds the recursion. -/
def natOctAux : Nat → Nat → List Char
  | 0, _ => []
  | fuel + 1, n =>
    if n < 8 then [Nat.digitChar n]
    else natOctAux fuel (n / 8) ++ [Nat.digitChar (n % 8)]

/-- Octal rendering of `n`, as Rust's `{:o}` format. -/
def natOct (n : Nat) : List Char := natOctAux (n + 1) n

/-- Rust `{:<w}` formatting: left-justified, space-padded to width `w`. -/
def lj (w : Nat) (s : List Char) : List Char :=
  s ++ List.replicate (w - s.length) ' '

/-- ASCII bytes of a character list. -/
def cb (l : List Char) : Bytes := l.map Char.toNat

theorem natDecAux_succ (f n : Nat) :
    natDecAux (f + 1) n = if n < 10 then [Nat.digitChar n]
      else natDecAux f (n / 10) ++ [Nat.digitChar (n % 10)] := rfl

theorem natOctAux_succ (f n : Nat) :
    natOctAux (f + 1) n = if n < 8 then [Nat.digitChar n]
      else natOctAux f (n / 8) ++ [Nat.digitChar (n % 8)] := rfl

theorem natDecAux_eq : ∀ f n, n < f → natDecAux f n = natDec n := by
  intro f
  induction f using Nat.strong_induction_on with
  | _ f ih =>
    intro n hn
    match f, hn with
    | f' + 1, hn =>
      by_cases h10 : n < 10
      · rw [natDecAux_succ, if_pos h10]
        simp only [natDec]
        rw [natDecAux_succ, if_pos h10]
      · have hdiv : n / 10 < n := Nat.div_lt_self (by omega) (by omega)
        rw [natDecAux_succ, if_neg h10]
        conv_rhs => simp only [natDec]; rw [natDecAux_succ, if_neg h10]
        rw [ih f' (by omega) (n / 10) (by omega), ih n hn (n / 10) hdiv]

theorem natOctAux_eq : ∀ f n, n < f → natOctAux f n = natOct n := by
  intro f
  induction f using Nat.strong_induction_on with
  | _ f ih =>
    intro n hn
    match f, hn with
    | f' + 1, hn =>
      by_cases h8 : n < 8
      · rw [natOctAux_succ, if_pos h8]
        simp only [natOct]
        rw [natOctAux_succ, if_pos h8]
      · have hdiv : n / 8 < n := Nat.div_lt_self (by omega) (by omega)
        rw [natOctAux_succ, if_neg h8]
        conv_rhs => simp only [natOct]; rw [natOctAux_succ, if_neg h8]
        rw [ih f' (by omega) (n / 8) (by omega), ih n hn (n / 8) hdiv]

theorem natDec_lt {n : Nat} (h : n < 10) : natDec n = [Nat.digitChar n] := by
  simp only [natDec]; rw [natDecAux_succ, if_pos h]

theorem natDec_ge {n : Nat} (h : ¬ n < 10) :
    natDec n = natDec (n / 10) ++ [Nat.digitChar (n % 10)] := by
  simp only [natDec]
  rw [natDecAux_succ, if_neg h,
    natDecAux_eq n (n / 10) (Nat.div_lt_self (by omega) (by omega))]
  rfl

theorem natOct_lt {n : Nat} (h : n < 8) : natOct n = [Nat.digitChar n] := by
  simp only [natOct]; rw [natOctAux_succ, if_pos h]

theorem natOct_ge {n : Nat} (h : ¬ n < 8) :
    natOct n = natOct (n / 8) ++ [Nat.digitChar (n % 8)] := by
  simp only [natOct]
  rw [natOctAux_succ, if_neg h,
    natOctAux_eq n (n / 8) (Nat.div_lt_self (by omega) (by omega))]
  rfl

/-- A number below `10^k` has at most `k` decimal digits. -/
theorem natDec_length_le : ∀ k, 1 ≤ k → ∀ n, n < 10 ^ k → (natDec n).length ≤ k := by
  intro k
  induction k with
  | zero => omega
  | succ k ihk =>
    intro _ n hn
    by_cases h10 : n < 10
    · rw [natDec_lt h10]; simp
    · have hk : 1 ≤ k := by
        rcases Nat.eq_zero_or_pos k with hk0 | hk0
        · subst hk0; simp at hn; omega
        · exact hk0
      have hdivlt : n / 10 < 10 ^ k := by
        rw [Nat.div_lt_iff_lt_mul (by omega)]
        calc n < 10 ^ (k + 1) := hn
          _ = 10 ^ k * 10 := by ring
      rw [natDec_ge h10]
      simp only [List.length_append, List.length_cons, List.length_nil]
      have := ihk hk (n / 10) hdivlt
      omega

/-- A number below `8^k` has at most `k` octal digits. -/
theorem natOct_length_le : ∀ k, 1 ≤ k → ∀ n, n < 8 ^ k → (natOct n).length ≤ k := by
  intro k
  induction k with
  | zero => omega
  | succ k ihk =>
    intro _ n hn
    by_cases h8 : n < 8
    · rw [natOct_lt h8]; simp
    · have hk : 1 ≤ k := by
        rcases Nat.eq_zero_or_pos k with hk0 | hk0
        · subst hk0; simp at hn; omega
        · exact hk0
      have hdivlt : n / 8 < 8 ^ k := by
        rw [Nat.div_lt_iff_lt_mul (by omega)]
        calc n < 8 ^ (k + 1) := hn
          _ = 8 ^ k * 8 := by ring
      rw [natOct_ge h8]
      simp only [List.length_append, List.length_cons, List.length_nil]
      have := ihk hk (n / 8) hdivlt
      omega

theorem lj_length_of_le {w : Nat} {s : List Char} (h : s.length ≤ w) :
    (lj w s).length = w := by
  simp only [lj, List.length_append, List.length_replicate]
  omega

theorem cb_length (l : List Char) : (cb l).length = l.length := by
  simp [cb]

/-! ## Object reader and member inputs (src/lib.rs) -/

/-- `ObjectReader` from src/lib.rs: the caller-injected capability. The
`get_symbols` callback protocol is modelled as the emitted list of symbol
names (its `bool` result is dropped by `write_symbols`). -/
structure ObjectReader where
  get_symbols : Bytes → List Bytes
  is_64_bit_object_file : Bytes → Bool
  is_ec_object_file : Bytes → Bool
  get_xcoff_member_alignment : Bytes → Nat

/-- `NewArchiveMember` from src/archive_writer.rs. -/
structure NewArchiveMember where
  buf : Bytes
  object_reader : ObjectReader
  member_name : List Char
  mtime : Nat
  uid : Nat
  gid : Nat
  perms : Nat

/-! ## COFF symbol map (a `BTreeMap<Box<[u8]>, u16>`)

Modelled as an association list kept sorted by lexicographic byte order, so
iteration order matches the `BTreeMap`'s. -/

/-- Lexicographic order on byte strings (the `Ord` of `Box<[u8]>`). -/
def bytesLt : Bytes → Bytes → Bool
  | [], [] => false
  | [], _ :: _ => true
  | _ :: _, [] => false
  | a :: as, b :: bs => if a < b then true else if b < a then false else bytesLt as bs

def btContains (m : List (Bytes × Nat)) (k : Bytes) : Bool :=
  m.any (fun e => e.1 == k)

/-- `BTreeMap::entry(k).or_insert(v)`: insert keeping an existing binding. -/
def btInsertNew : List (Bytes × Nat) → Bytes → Nat → List (Bytes × Nat)
  | [], k, v => [(k, v)]
  | (k', v') :: t, k, v =>
    if bytesLt k k' then (k, v) :: (k', v') :: t
    else if bytesLt k' k then (k', v') :: btInsertNew t k v
    else (k', v') :: t

/-- `BTreeMap::insert(k, v)`: insert overwriting an existing binding. -/
def btInsertOver : List (Bytes × Nat) → Bytes → Nat → List (Bytes × Nat)
  | [], k, v => [(k, v)]
  | (k', v') :: t, k, v =>
    if bytesLt k k' then (k, v) :: (k', v') :: t
    else if bytesLt k' k then (k', v') :: btInsertOver t k v
    else (k, v) :: t

/-- `SymMap` from src/archive_writer.rs. -/
structure SymMap where
  use_ec_map : Bool
  map : List (Bytes × Nat)
  ec_map : List (Bytes × Nat)

/-- `IMPORT_DESCRIPTOR_PREFIX` from src/coff_import_file.rs. -/
def importDescriptorStart : Bytes := cb "__IMPORT_DESCRIPTOR_".data

/-- `NULL_IMPORT_DESCRIPTOR_SYMBOL_NAME` from src/coff_import_file.rs. -/
def nullImportDescriptorName : Bytes := cb "__NULL_IMPORT_DESCRIPTOR".data

/-- `NULL_THUNK_DATA_PREFIX` from src/coff_import_file.rs (`b"\x7f"`). -/
def nullThunkDataStart : Bytes := [0x7f]

/-- `NULL_THUNK_DATA_SUFFIX` from src/coff_import_file.rs. -/
def nullThunkDataEnd : Bytes := cb "_NULL_THUNK_DATA".data

/-- `is_import_descriptor` from src/archive_writer.rs. -/
def is_import_descriptor (name : Bytes) : Bool :=
  importDescriptorStart.isPrefixOf name || name == nullImportDescriptorName ||
    (nullThunkDataStart.isPrefixOf name && nullThunkDataEnd.isSuffixOf name)

/-- `write_symbols` from src/archive_writer.rs: collect the object's symbol
names into the shared symbol-name stream (returning their offsets), and/or
into the COFF symbol map / EC map. Returns
`(member symbol offsets, new stream, new map)`. -/
def write_symbols (obj : Bytes) (index : Nat) (sym_names : Bytes)
    (sym_map : Option SymMap) (object_reader : ObjectReader) :
    List Nat × Bytes × Option SymMap :=
  let names := object_reader.get_symbols obj
  match sym_map with
  | none =>
    let r := names.foldl
      (fun (st : List Nat × Bytes) name =>
        (st.1 ++ [st.2.length], st.2 ++ name ++ [0]))
      ([], sym_names)
    (r.1, r.2, none)
  | some sm =>
    if sm.use_ec_map && object_reader.is_ec_object_file obj then
      let ec' := names.foldl (fun ecm name => btInsertNew ecm name index) sm.ec_map
      ([], sym_names, some { sm with ec_map := ec' })
    else
      let r := names.foldl
        (fun (st : List Nat × Bytes × List (Bytes × Nat) × List (Bytes × Nat)) name =>
          let (ret, sn, m, ecm) := st
          if btContains m name then (ret, sn, m, ecm)   -- ignore duplicated symbol
          else
            let m' := btInsertNew m name index
            let ecm' := if is_import_descriptor name then btInsertOver ecm name index else ecm
            (ret ++ [sn.length], sn ++ name ++ [0], m', ecm'))
        ([], sym_names, sm.map, sm.ec_map)
      (r.1, r.2.1, some { sm with map := r.2.2.1, ec_map := r.2.2.2 })

/-! ## Member headers and the member-data pass (src/archive_writer.rs) -/

/-- `MemberData` from src/archive_writer.rs. -/
structure MemberData where
  symbols : List Nat
  header : Bytes
  data : Bytes
  padding : Bytes
  pre_head_pad_size : Nat
  object_reader : ObjectReader

/-- Stand-in for `DEFAULT_OBJECT_READER` (its functions wrap the external
`object` crate and are never consulted for the string-table member). -/
def defaultObjectReader : ObjectReader :=
  { get_symbols := fun _ => [], is_64_bit_object_file := fun _ => false,
    is_ec_object_file := fun _ => false, get_xcoff_member_alignment := fun _ => 2 }

/-- `now` from src/archive_writer.rs: deterministic timestamps, always 0. -/
def now : Nat := 0

/-- `print_rest_of_member_header` from src/archive_writer.rs. -/
def print_rest_of_member_header (mtime uid gid perms size : Nat) : List Char :=
  lj 12 (natDec mtime) ++ lj 6 (natDec (uid % 1000000)) ++ lj 6 (natDec (gid % 1000000)) ++
    lj 8 (natOct perms) ++ lj 10 (natDec size) ++ ['`', '\n']

/-- `print_gnu_small_member_header` from src/archive_writer.rs. -/
def print_gnu_small_member_header (name : List Char) (mtime uid gid perms size : Nat) :
    List Char :=
  lj 16 (name ++ ['/']) ++ print_rest_of_member_header mtime uid gid perms size

/-- `print_bsd_member_header` from src/archive_writer.rs. -/
def print_bsd_member_header (pos : Nat) (name : List Char)
    (mtime uid gid perms size : Nat) : List Char :=
  let pos_after_header := pos + 60 + name.length
  -- Pad so that even 64 bit object files are aligned.
  let pad := offset_to_alignment pos_after_header 8
  let name_with_padding := name.length + pad
  ['#', '1', '/'] ++ lj 13 (natDec name_with_padding) ++
    print_rest_of_member_header mtime uid gid perms (name_with_padding + size) ++
    name ++ List.replicate pad (Char.ofNat 0)

/-- `print_big_archive_member_header` from src/archive_writer.rs. -/
def print_big_archive_member_header (name : List Char)
    (mtime uid gid perms size prev_offset next_offset : Nat) : List Char :=
  lj 20 (natDec size) ++ lj 20 (natDec next_offset) ++ lj 20 (natDec prev_offset) ++
    lj 12 (natDec mtime) ++ lj 12 (natDec (uid % 1000000000000)) ++
    lj 12 (natDec (gid % 1000000000000)) ++ lj 12 (natOct perms) ++
    lj 4 (natDec name.length) ++
    (if name.isEmpty then []
     else name ++ (if name.length % 2 ≠ 0 then [Char.ofNat 0] else [])) ++
    ['`', '\n']

/-- `use_string_table` from src/archive_writer.rs. -/
def use_string_table (thin : Bool) (name : List Char) : Bool :=
  thin || decide (name.length ≥ 16) || name.contains '/'

/-- First-match lookup in the `member_names` dedup map (a `HashMap` accessed
only by key). -/
def lookupName : List (List Char × Nat) → List Char → Option Nat
  | [], _ => none
  | (k, v) :: t, n => if k == n then some v else lookupName t n

/-- The effect of `print_member_header` on the long-name string table and the
`member_names` dedup map (src/archive_writer.rs lines 196-213): BSD-like
kinds and short non-thin names leave them untouched; thin mode always appends
`name ++ "/\n"`; otherwise the entry (NUL-terminated for COFF, `"/\n"`
otherwise) is appended only on the name's first occurrence. -/
def member_name_entry (kind : ArchiveKind) (thin : Bool)
    (st_mn : Bytes × List (List Char × Nat)) (name : List Char) :
    Bytes × List (List Char × Nat) :=
  if is_bsd_like kind then st_mn
  else if !use_string_table thin name then st_mn
  else if thin then (st_mn.1 ++ cb (name ++ ['/', '\n']), st_mn.2)
  else
    match lookupName st_mn.2 name with
    | some _ => st_mn
    | none =>
      (st_mn.1 ++ (if is_coff_archive kind then cb name ++ [0] else cb (name ++ ['/', '\n'])),
       st_mn.2 ++ [(name, st_mn.1.length)])

/-- `print_member_header` from src/archive_writer.rs: the emitted header plus
the updated string table and dedup map. -/
def print_member_header (pos : Nat) (string_table : Bytes)
    (member_names : List (List Char × Nat)) (kind : ArchiveKind) (thin : Bool)
    (m : NewArchiveMember) (mtime size : Nat) :
    List Char × Bytes × List (List Char × Nat) :=
  if is_bsd_like kind then
    (print_bsd_member_header pos m.member_name mtime m.uid m.gid m.perms size,
      string_table, member_names)
  else if !use_string_table thin m.member_name then
    (print_gnu_small_member_header m.member_name mtime m.uid m.gid m.perms size,
      string_table, member_names)
  else
    let name_pos :=
      if thin then string_table.length
      else
        match lookupName member_names m.member_name with
        | some p => p
        | none => string_table.length
    let st_mn := member_name_entry kind thin (string_table, member_names) m.member_name
    (['/'] ++ lj 15 (natDec name_pos) ++
      print_rest_of_member_header mtime m.uid m.gid m.perms size, st_mn.1, st_mn.2)

/-- `compute_string_table` from src/archive_writer.rs: the `//` member. -/
def compute_string_table (names : Bytes) : MemberData :=
  let size := names.length
  let pad := offset_to_alignment size 2
  { symbols := []
    header := cb (lj 48 ['/', '/'] ++ lj 10 (natDec (size + pad)) ++ ['`', '\n'])
    data := names
    padding := if pad ≠ 0 then [10] else []
    pre_head_pad_size := 0
    object_reader := defaultObjectReader }

/-- `size_of::<big_archive::FixLenHdr>()`: 8-byte magic plus six 20-byte
fields (src/archive.rs). -/
def FIX_LEN_HDR_SIZE : Nat := 128

/-- `BIG_AR_MEM_HDR_SIZE` from src/archive_writer.rs. The referenced
`big_archive::BigArMemHdrType` struct declaration is not part of src/; it
mirrors LLVM's `BigArMemHdrType`: the fixed-width prelude emitted by
`print_big_archive_member_header` (20+20+20+12+12+12+12+4 = 112 bytes) plus
the 2-byte `` `\n `` terminator — 114 bytes, the size the AIX flow's own
`next_offset` arithmetic needs to land on the next member header. -/
def BIG_AR_MEM_HDR_SIZE : Nat := 114

/-- Per-name occurrence counting for Darwin unique timestamps:
`*filename_count.entry(name).or_insert(0) += 1`. -/
def acAdd : List (List Char × Nat) → List Char → List (List Char × Nat)
  | [], n => [(n, 1)]
  | (k, c) :: t, n => if k == n then (k, c + 1) :: t else (k, c) :: acAdd t n

def acGet : List (List Char × Nat) → List Char → Nat
  | [], _ => 0
  | (k, c) :: t, n => if k == n then c else acGet t n

/-- The first Darwin pass: count every member name. -/
def build_filename_count (names : List (List Char)) : List (List Char × Nat) :=
  names.foldl acAdd []

/-- The second Darwin pass: `count = if count > 1 { 1 } else { 0 }`. -/
def cap_counts (m : List (List Char × Nat)) : List (List Char × Nat) :=
  m.map (fun e => (e.1, if e.2 > 1 then 1 else 0))

/-- The per-member Darwin unique-timestamp step (lines 691-697): pre-increment
the per-name counter and emit `counter - 1`. -/
def next_unique_mtime (fc : List (List Char × Nat)) (name : List Char) :
    Nat × List (List Char × Nat) :=
  let fc' := acAdd fc name
  (acGet fc' name - 1, fc')

/-- "Archive member {} is too big" -/
def size_err_msg (name : List Char) : List Char :=
  "Archive member ".data ++ name ++ " is too big".data

/-- The running state of the `compute_member_data` loop. -/
structure LoopState where
  pos : Nat
  string_table : Bytes
  member_names : List (List Char × Nat)
  sym_names : Bytes
  sym_map : Option SymMap
  filename_count : List (List Char × Nat)
  prev_offset : Nat
  next_mem_head_pad_size : Nat
  mem_head_pad_size : Nat
  index : Nat
  has_object : Bool
  ret : List MemberData

/-- One iteration of the `compute_member_data` loop (src/archive_writer.rs
lines 670-787). `none` models the `usize -> u16` panic on the member index
passed to `write_symbols` (`index.try_into().unwrap()`). -/
def cmdStep (kind : ArchiveKind) (thin : Bool) (st : LoopState)
    (m : NewArchiveMember) (rest : List NewArchiveMember) :
    Option (Except (List Char) LoopState) :=
  let buf := m.buf
  let data := if thin then [] else buf
  let index := st.index + 1
  let member_padding :=
    if is_darwin kind then offset_to_alignment data.length 8 else 0
  let tail_padding := offset_to_alignment (data.length + member_padding) 2
  let padding : Bytes := List.replicate (member_padding + tail_padding) 10
  let mt :=
    if is_darwin kind then next_unique_mtime st.filename_count m.member_name
    else (m.mtime, st.filename_count)
  let size := buf.length + member_padding
  if size > MAX_MEMBER_SIZE then
    some (.error (size_err_msg m.member_name))
  else if index > 65535 then
    none
  else
    let ws := write_symbols buf index st.sym_names st.sym_map m.object_reader
    if is_aix_big_archive kind then
      let offset_to_mem_data :=
        st.pos + BIG_AR_MEM_HDR_SIZE + align_to m.member_name.length 2
      let next1 :=
        if index = 1 then
          align_to_power_of2 offset_to_mem_data
            (m.object_reader.get_xcoff_member_alignment buf) - offset_to_mem_data
        else st.next_mem_head_pad_size
      let pos1 := st.pos + next1
      let next_offset0 := pos1 + BIG_AR_MEM_HDR_SIZE +
        align_to m.member_name.length 2 + align_to size 2
      let nn :=
        match rest with
        | [] => (next_offset0, next1)
        | next_m :: _ =>
          let offset_to_next_mem_data := next_offset0 + BIG_AR_MEM_HDR_SIZE +
            align_to next_m.member_name.length 2
          let p := align_to_power_of2 offset_to_next_mem_data
            (m.object_reader.get_xcoff_member_alignment next_m.buf) -
            offset_to_next_mem_data
          (next_offset0 + p, p)
      let header := cb (print_big_archive_member_header m.member_name mt.1
        m.uid m.gid m.perms size st.prev_offset nn.1)
      let md : MemberData :=
        { symbols := ws.1, header := header, data := data, padding := padding,
          pre_head_pad_size := next1, object_reader := m.object_reader }
      some (.ok
        { pos := pos1 + header.length + data.length + padding.length,
          string_table := st.string_table,
          member_names := st.member_names,
          sym_names := ws.2.1,
          sym_map := ws.2.2,
          filename_count := mt.2,
          prev_offset := pos1,
          next_mem_head_pad_size := nn.2,
          mem_head_pad_size := next1,
          index := index,
          has_object := true,
          ret := st.ret ++ [md] })
    else
      let ph := print_member_header st.pos st.string_table st.member_names
        kind thin m mt.1 size
      let header := cb ph.1
      let md : MemberData :=
        { symbols := ws.1, header := header, data := data, padding := padding,
          pre_head_pad_size := st.mem_head_pad_size, object_reader := m.object_reader }
      some (.ok
        { pos := st.pos + header.length + data.length + padding.length,
          string_table := ph.2.1,
          member_names := ph.2.2,
          sym_names := ws.2.1,
          sym_map := ws.2.2,
          filename_count := mt.2,
          prev_offset := st.prev_offset,
          next_mem_head_pad_size := st.next_mem_head_pad_size,
          mem_head_pad_size := st.mem_head_pad_size,
          index := index,
          has_object := true,
          ret := st.ret ++ [md] })

/-- The `compute_member_data` loop over the member list. -/
def cmdLoop (kind : ArchiveKind) (thin : Bool) :
    LoopState → List NewArchiveMember → Option (Except (List Char) LoopState)
  | st, [] => some (.ok st)
  | st, m :: rest =>
    match cmdStep kind thin st m rest with
    | none => none
    | some (.error e) => some (.error e)
    | some (.ok st') => cmdLoop kind thin st' rest

/-- Result of `compute_member_data`. -/
structure CMDResult where
  ret : List MemberData
  string_table : Bytes
  sym_names : Bytes
  sym_map : Option SymMap

/-- The initial loop state of `compute_member_data`: the starting position
(the fixed AIX header for big archives), empty buffers, and the capped Darwin
filename counts. -/
def cmd_init_state (kind : ArchiveKind) (sym_map : Option SymMap)
    (new_members : List NewArchiveMember) : LoopState :=
  { pos := if is_aix_big_archive kind then FIX_LEN_HDR_SIZE else 0,
    string_table := [], member_names := [], sym_names := [],
    sym_map := sym_map,
    filename_count :=
      if is_darwin kind then
        cap_counts (build_filename_count (new_members.map (·.member_name)))
      else [],
    prev_offset := 0, next_mem_head_pad_size := 0, mem_head_pad_size := 0,
    index := 0, has_object := false, ret := [] }

/-- `compute_member_data` from src/archive_writer.rs. After the pass:
`has_object` was set unconditionally for every member, so the 3-NUL Solaris
workaround fires exactly when the member list is non-empty, the symbol-name
stream is empty, and the kind is not COFF. -/
def compute_member_data (kind : ArchiveKind) (thin : Bool) (sym_map : Option SymMap)
    (new_members : List NewArchiveMember) : Option (Except (List Char) CMDResult) :=
  match cmdLoop kind thin (cmd_init_state kind sym_map new_members) new_members with
  | none => none
  | some (.error e) => some (.error e)
  | some (.ok st) =>
    let sym_names' :=
      if st.has_object && st.sym_names.length == 0 && !is_coff_archive kind then
        st.sym_names ++ [0, 0, 0]
      else st.sym_names
    some (.ok
      { ret := st.ret, string_table := st.string_table,
        sym_names := sym_names', sym_map := st.sym_map })

/-! ## Symbol table, symbol map and EC symbols (src/archive_writer.rs) -/

/-- `compute_symbol_table_size_and_pad` from src/archive_writer.rs. -/
def compute_symbol_table_size_and_pad (kind : ArchiveKind)
    (num_syms offset_size string_table_size : Nat) : Nat × Nat :=
  let size := offset_size +
    (if is_bsd_like kind then num_syms * offset_size * 2 else num_syms * offset_size) +
    (if is_bsd_like kind then offset_size else 0) + string_table_size
  let pad :=
    if is_aix_big_archive kind then 0
    else offset_to_alignment size (if is_bsd_like kind then 8 else 2)
  (size + pad, pad)

/-- `compute_symbol_map_size_and_pad` from src/archive_writer.rs. -/
def compute_symbol_map_size_and_pad (num_obj : Nat) (sym_map : SymMap) : Nat × Nat :=
  let size := 4 * 2 + num_obj * 4 +
    sym_map.map.foldl (fun acc e => acc + (2 + e.1.length + 1)) 0
  let pad := offset_to_alignment size 2
  (size + pad, pad)

/-- `compute_ec_symbols_size_and_pad` from src/archive_writer.rs. -/
def compute_ec_symbols_size_and_pad (sym_map : SymMap) : Nat × Nat :=
  let size := 4 + sym_map.ec_map.foldl (fun acc e => acc + (2 + e.1.length + 1)) 0
  let pad := offset_to_alignment size 2
  (size + pad, pad)

def toLEBytes (w val : Nat) : Bytes :=
  (List.range w).map (fun i => val / 256 ^ i % 256)

def toBEBytes (w val : Nat) : Bytes := (toLEBytes w val).reverse

/-- `print_n_bits` from src/archive_writer.rs: LE for BSD-like kinds, BE
otherwise, 8 bytes for 64-bit kinds and 4 otherwise. -/
def print_n_bits (kind : ArchiveKind) (val : Nat) : Bytes :=
  if is_64bit_kind kind then
    if is_bsd_like kind then toLEBytes 8 val else toBEBytes 8 val
  else
    if is_bsd_like kind then toLEBytes 4 val else toBEBytes 4 val

/-- `write_symbol_table_header` from src/archive_writer.rs; `pos` is the
output stream position (consulted only by the BSD-like branch). -/
def write_symbol_table_header (kind : ArchiveKind)
    (size prev_member_offset next_member_offset pos : Nat) : Bytes :=
  if is_bsd_like kind then
    let name := if is_64bit_kind kind then "__.SYMDEF_64".data else "__.SYMDEF".data
    cb (print_bsd_member_header pos name now 0 0 0 size)
  else if is_aix_big_archive kind then
    cb (print_big_archive_member_header [] now 0 0 0 size
      prev_member_offset next_member_offset)
  else
    let name := if is_64bit_kind kind then "/SYM64".data else []
    cb (print_gnu_small_member_header name now 0 0 0 size)

/-- `compute_headers_size` from src/archive_writer.rs. -/
def compute_headers_size (kind : ArchiveKind) (num_members : Nat)
    (string_member_size num_syms sym_names_size : Nat) (sym_map : Option SymMap) : Nat :=
  let offset_size := if is_64bit_kind kind then 8 else 4
  let symtab_size :=
    (compute_symbol_table_size_and_pad kind num_syms offset_size sym_names_size).1
  let header_size := (write_symbol_table_header kind symtab_size 0 0 0).length
  let size := 8 + header_size + symtab_size +
    (match sym_map with
     | some sm => header_size + (compute_symbol_map_size_and_pad num_members sm).1 +
         (if !sm.ec_map.isEmpty then
           header_size + (compute_ec_symbols_size_and_pad sm).1
          else 0)
     | none => 0)
  size + string_member_size

/-- `write_symbol_table` from src/archive_writer.rs; returns the emitted
bytes (empty when the table is skipped). `pos` is the output position at the
call site (8 after the magic in the non-AIX flow). -/
def write_symbol_table (kind : ArchiveKind) (members : List MemberData)
    (string_table : Bytes)
    (members_offset num_syms prev_member_offset next_member_offset : Nat)
    (is_64_bit : Bool) (pos : Nat) : Bytes :=
  -- We don't write a symbol table on an archive with no members -- except on
  -- Darwin, where the linker will abort unless the archive has a symbol table.
  if string_table.isEmpty && !is_darwin kind && !is_coff_archive kind then []
  else
    let offset_size := if is_64bit_kind kind then 8 else 4
    let sp := compute_symbol_table_size_and_pad kind num_syms offset_size
      string_table.length
    let hdr := write_symbol_table_header kind sp.1 prev_member_offset
      next_member_offset pos
    let counts :=
      if is_bsd_like kind then print_n_bits kind (num_syms * 2 * offset_size)
      else print_n_bits kind num_syms
    let body := (members.foldl
      (fun (acc : Nat × Bytes) md =>
        let p := if is_aix_big_archive kind then acc.1 + md.pre_head_pad_size else acc.1
        if is_aix_big_archive kind &&
            (md.object_reader.is_64_bit_object_file md.data != is_64_bit) then
          (p + md.header.length + md.data.length + md.padding.length, acc.2)
        else
          let syms := md.symbols.foldl
            (fun a so =>
              a ++ (if is_bsd_like kind then print_n_bits kind so else []) ++
                print_n_bits kind p) []
          (p + md.header.length + md.data.length + md.padding.length, acc.2 ++ syms))
      (members_offset, [])).2
    hdr ++ counts ++ body ++
      (if is_bsd_like kind then print_n_bits kind string_table.length else []) ++
      string_table ++ List.replicate sp.2 0

/-- `write_symbol_map` from src/archive_writer.rs. The member-offset loop
runs in `u32` (lines 467-479): `none` models the panics of
`members_offset.try_into::<u32>().unwrap()`, each member size's
`try_into::<u32>().unwrap()`, the running offset's
`checked_add(..).unwrap()`, and the `u32::try_from` of `members.len()`
(line 469) and `sym_map.map.len()` (line 481) — any offset or count
reaching `2^32` panics instead of writing. -/
def write_symbol_map (kind : ArchiveKind) (members : List MemberData)
    (sym_map : SymMap) (members_offset pos : Nat) : Option Bytes :=
  let sp := compute_symbol_map_size_and_pad members.length sym_map
  let hdr := write_symbol_table_header kind sp.1 0 0 pos
  let offsets := members.foldl
    (fun (acc : Option (Nat × Bytes)) md =>
      match acc with
      | none => none
      | some pb =>
        let sz := md.header.length + md.data.length + md.padding.length
        if sz < 2 ^ 32 ∧ pb.1 + sz < 2 ^ 32 then
          some (pb.1 + sz, pb.2 ++ toLEBytes 4 pb.1)
        else none)
    (if members_offset < 2 ^ 32 then some (members_offset, ([] : Bytes)) else none)
  match offsets with
  | none => none
  | some pb =>
    if members.length < 2 ^ 32 ∧ sym_map.map.length < 2 ^ 32 then
      some (hdr ++ toLEBytes 4 members.length ++ pb.2 ++
        toLEBytes 4 sym_map.map.length ++
        sym_map.map.foldl (fun a e => a ++ toLEBytes 2 e.2) [] ++
        sym_map.map.foldl (fun a e => a ++ e.1 ++ [0]) [] ++
        List.replicate sp.2 0)
    else none

/-- `write_ec_symbols` from src/archive_writer.rs; `none` models the panic
of `u32::try_from(sym_map.ec_map.len()).unwrap()` (line 504). -/
def write_ec_symbols (sym_map : SymMap) : Option Bytes :=
  let sp := compute_ec_symbols_size_and_pad sym_map
  if sym_map.ec_map.length < 2 ^ 32 then
    some (cb (print_gnu_small_member_header "/<ECSYMBOLS>".data now 0 0 0 sp.1) ++
      toLEBytes 4 sym_map.ec_map.length ++
      sym_map.ec_map.foldl (fun a e => a ++ toLEBytes 2 e.2) [] ++
      sym_map.ec_map.foldl (fun a e => a ++ e.1 ++ [0]) [] ++
      List.replicate sp.2 0)
  else none

/-! ## The assembler (src/archive_writer.rs, `write_archive_to_stream`) -/

/-- The COFF member-count cap (lines 815-819): the COFF symbol map uses
16-bit member indexes, so a request for more than 0xFFFE members silently
downgrades the kind to `Gnu`. -/
def effective_kind (kind : ArchiveKind) (num_members : Nat) : ArchiveKind :=
  if is_coff_archive kind && decide (num_members > 0xfffe) then .Gnu else kind

/-- The 64-bit promotion step of `write_archive_to_stream` (lines 877-909):
when the kind is not already 64-bit and `headers_size +
last_member_header_offset` reaches `2^32`, `Darwin` becomes `Darwin64` and
every other (non-64-bit) kind becomes `Gnu64`. -/
def promoted_kind (kind : ArchiveKind)
    (headers_size last_member_header_offset : Nat) : ArchiveKind :=
  if !is_64bit_kind kind then
    if headers_size + last_member_header_offset ≥ 2 ^ 32 then
      if kind = .Darwin then .Darwin64 else .Gnu64
    else kind
  else kind

/-- The scan over computed members in `write_archive_to_stream` (lines
852-871): `(last_member_end_offset, last_member_header_offset, num_syms,
num_syms32)`. -/
def member_scan (kind : ArchiveKind) (data : List MemberData) : Nat × Nat × Nat × Nat :=
  data.foldl
    (fun (acc : Nat × Nat × Nat × Nat) md =>
      let lmeo0 := acc.1 + md.pre_head_pad_size
      (lmeo0 + md.header.length + md.data.length + md.padding.length, lmeo0,
        acc.2.2.1 + md.symbols.length,
        if is_aix_big_archive kind &&
            !(md.object_reader.is_64_bit_object_file md.data) then
          acc.2.2.2 + md.symbols.length
        else acc.2.2.2))
    (0, 0, 0, 0)

/-- The non-AIX emission flow of `write_archive_to_stream` (lines 919-964):
symbol table, COFF symbol map, `//` member, EC symbols, then the members;
`none` when `write_symbol_map` or `write_ec_symbols` panics on a `u32`
overflow. -/
def write_prefix_flow (kind : ArchiveKind) (data : List MemberData)
    (sym_names : Bytes) (sym_map : SymMap) (stm : Option MemberData)
    (string_table_size num_syms headers_size : Nat) : Option Bytes :=
  let symtab := write_symbol_table kind data sym_names headers_size num_syms 0 0 false 8
  let symmapO :=
    if is_coff_archive kind then
      write_symbol_map kind data sym_map headers_size (8 + symtab.length)
    else some []
  match symmapO with
  | none => none
  | some symmap =>
    let stbytes :=
      if string_table_size > 0 then
        match stm with
        | some st => st.header ++ st.data ++ st.padding
        | none => []
      else []
    let ecsO := if !sym_map.ec_map.isEmpty then write_ec_symbols sym_map else some []
    match ecsO with
    | none => none
    | some ecs =>
      let membytes := data.foldl
        (fun acc md => acc ++ md.header ++ md.data ++ md.padding) []
      some (symtab ++ symmap ++ stbytes ++ ecs ++ membytes)

/-- The member-offset table scan of the AIX flow (lines 976-990). -/
def aix_member_offsets (new_members : List NewArchiveMember)
    (data : List MemberData) : List Nat :=
  ((List.zip new_members data).foldl
    (fun (acc : Nat × List Nat) md =>
      let meo := acc.1 + md.2.pre_head_pad_size
      (meo + BIG_AR_MEM_HDR_SIZE + align_to md.2.data.length 2 +
        align_to md.1.member_name.length 2, acc.2 ++ [meo]))
    (FIX_LEN_HDR_SIZE, [])).2

/-- The per-width symbol-name streams of the AIX flow (lines 996-1014). -/
def aix_sym_names (data : List MemberData) (num_syms : Nat) : Bytes × Bytes :=
  if num_syms > 0 then
    data.foldl
      (fun (acc : Bytes × Bytes) md =>
        if md.object_reader.is_64_bit_object_file md.data then
          (acc.1, (write_symbols md.data 0 acc.2 none md.object_reader).2.1)
        else
          ((write_symbols md.data 0 acc.1 none md.object_reader).2.1, acc.2))
      ([], [])
  else ([], [])

/-- The AIX big-archive emission flow of `write_archive_to_stream` (lines
965-1165), excluding the magic: fixed-length header, members, member table
and the global symbol tables. -/
def write_aix_flow (kind : ArchiveKind) (new_members : List NewArchiveMember)
    (data : List MemberData)
    (last_member_end_offset last_member_header_offset num_syms num_syms32 : Nat) :
    Bytes :=
  let headers_size := FIX_LEN_HDR_SIZE
  let lmeo := last_member_end_offset + headers_size
  let lmho := last_member_header_offset + headers_size
  let member_table_name_str_tbl_size := new_members.foldl
    (fun acc mem => acc + mem.member_name.length + 1) 0
  let member_offsets := aix_member_offsets new_members data
  let member_table_size :=
    20 + 20 * member_offsets.length + member_table_name_str_tbl_size
  let sym_names32 := (aix_sym_names data num_syms).1
  let sym_names64 := (aix_sym_names data num_syms).2
  let member_table_end_offset :=
    lmeo + align_to (BIG_AR_MEM_HDR_SIZE + member_table_size) 2
  let global_symbol_offset := if num_syms32 > 0 then member_table_end_offset else 0
  let num_syms64 := num_syms - num_syms32
  let global_symbol_offset64 :=
    if num_syms64 > 0 then
      if global_symbol_offset = 0 then member_table_end_offset
      else global_symbol_offset + BIG_AR_MEM_HDR_SIZE + (num_syms32 + 1) * 8 +
        align_to sym_names32.length 2
    else 0
  let fixed := cb (
    lj 20 (natDec (if new_members.isEmpty then 0 else lmeo)) ++
    lj 20 (natDec global_symbol_offset) ++
    lj 20 (natDec global_symbol_offset64) ++
    lj 20 (natDec (if new_members.isEmpty then 0
      else FIX_LEN_HDR_SIZE +
        (match data with | [] => 0 | d0 :: _ => d0.pre_head_pad_size))) ++
    lj 20 (natDec (if new_members.isEmpty then 0 else lmho)) ++
    lj 20 (natDec 0))
  let membytes := data.foldl
    (fun acc md => acc ++ List.replicate md.pre_head_pad_size 0 ++
      md.header ++ md.data ++
      (if md.data.length % 2 == 1 then [0] else [])) []
  let tailbytes :=
    if new_members.isEmpty then []
    else
      cb (print_big_archive_member_header [] 0 0 0 0 member_table_size lmho
        (if global_symbol_offset ≠ 0 then global_symbol_offset
         else global_symbol_offset64)) ++
      cb (lj 20 (natDec member_offsets.length)) ++
      member_offsets.foldl (fun a o => a ++ cb (lj 20 (natDec o))) [] ++
      new_members.foldl (fun a mem => a ++ cb mem.member_name ++ [0]) [] ++
      (if member_table_name_str_tbl_size % 2 == 1 then [0] else []) ++
      (if global_symbol_offset ≠ 0 then
        write_symbol_table kind data sym_names32 headers_size num_syms32 lmeo
          global_symbol_offset64 false 0 ++
        (if global_symbol_offset64 ≠ 0 then
          (if sym_names32.length % 2 == 1 then [0] else [])
         else [])
       else []) ++
      (if global_symbol_offset64 ≠ 0 then
        write_symbol_table kind data sym_names64 headers_size num_syms64
          (if global_symbol_offset ≠ 0 then global_symbol_offset else lmeo)
          0 true 0
       else [])
  fixed ++ membytes ++ tailbytes

/-- `write_archive_to_stream` from src/archive_writer.rs: the full archive
byte stream. `none` models a panic — the thin/BSD-like `assert!`, the
`usize -> u16` member-index overflow inside the member pass, or the `u32`
conversion/`checked_add` overflows inside `write_symbol_map` and
`write_ec_symbols` on the COFF path; `some (.error e)` an `Err` return;
`some (.ok bytes)` the bytes written to the sink. -/
def write_archive_to_stream (new_members : List NewArchiveMember)
    (kind0 : ArchiveKind) (thin is_ec : Bool) : Option (Except (List Char) Bytes) :=
  -- assert!(!thin || !is_bsd_like(kind), "Only the gnu format has a thin mode")
  if thin && is_bsd_like kind0 then none
  else
    let kind := effective_kind kind0 new_members.length
    let sym_map0 : SymMap := { use_ec_map := is_ec, map := [], ec_map := [] }
    match compute_member_data kind thin
        (if is_coff_archive kind then some sym_map0 else none) new_members with
    | none => none
    | some (.error e) => some (.error e)
    | some (.ok r) =>
      let sym_names := r.sym_names
      let sym_map := r.sym_map.getD sym_map0
      let data := r.ret
      let stm :=
        if !r.string_table.isEmpty && !is_aix_big_archive kind then
          some (compute_string_table r.string_table)
        else none
      let string_table_size :=
        match stm with
        | some st => st.header.length + st.data.length + st.padding.length
        | none => 0
      let scan := member_scan kind data
      -- 64-bit promotion, computed with 32-bit assumptions first.
      let hs32 := compute_headers_size kind data.length string_table_size scan.2.2.1
        sym_names.length (if is_coff_archive kind then some sym_map else none)
      let kind := promoted_kind kind hs32 scan.2.1
      let magic : Bytes :=
        if thin then cb "!<thin>\n".data
        else if is_aix_big_archive kind then cb "<bigaf>\n".data
        else cb "!<arch>\n".data
      if !is_aix_big_archive kind then
        let headers_size := compute_headers_size kind data.length string_table_size
          scan.2.2.1 sym_names.length
          (if is_coff_archive kind then some sym_map else none)
        (write_prefix_flow kind data sym_names sym_map stm
          string_table_size scan.2.2.1 headers_size).map
          (fun pre => .ok (magic ++ pre))
      else
        some (.ok (magic ++ write_aix_flow kind new_members data
          scan.1 scan.2.1 scan.2.2.1 scan.2.2.2))

/-! ## Helper lemmas about the member pass -/

/-- The `size` checked against `MAX_MEMBER_SIZE` for a member: payload length
plus the Darwin 8-alignment padding (computed on the on-disk data, which is
empty in thin mode). -/
def member_size (kind : ArchiveKind) (thin : Bool) (m : NewArchiveMember) : Nat :=
  m.buf.length +
    (if is_darwin kind then
      offset_to_alignment (if thin then ([] : Bytes) else m.buf).length 8
     else 0)

theorem cmdStep_error {kind : ArchiveKind} {thin : Bool} {st : LoopState}
    {m : NewArchiveMember} {rest : List NewArchiveMember}
    (h : member_size kind thin m > MAX_MEMBER_SIZE) :
    cmdStep kind thin st m rest = some (.error (size_err_msg m.member_name)) := by
  unfold cmdStep
  rw [if_pos (by simpa [member_size] using h)]

theorem cmdStep_panic {kind : ArchiveKind} {thin : Bool} {st : LoopState}
    {m : NewArchiveMember} {rest : List NewArchiveMember}
    (h : ¬ member_size kind thin m > MAX_MEMBER_SIZE) (hidx : st.index + 1 > 65535) :
    cmdStep kind thin st m rest = none := by
  unfold cmdStep
  rw [if_neg (by simpa [member_size] using h), if_pos hidx]

theorem cmdStep_ok {kind : ArchiveKind} {thin : Bool} {st : LoopState}
    {m : NewArchiveMember} {rest : List NewArchiveMember}
    (h : ¬ member_size kind thin m > MAX_MEMBER_SIZE) (hidx : ¬ st.index + 1 > 65535) :
    ∃ st', cmdStep kind thin st m rest = some (.ok st') ∧ st'.index = st.index + 1 := by
  unfold cmdStep
  rw [if_neg (by simpa [member_size] using h), if_neg hidx]
  by_cases haix : is_aix_big_archive kind = true
  · rw [if_pos haix]
    exact ⟨_, rfl, rfl⟩
  · rw [if_neg haix]
    exact ⟨_, rfl, rfl⟩

theorem cmdLoop_cons (kind : ArchiveKind) (thin : Bool) (st : LoopState)
    (m : NewArchiveMember) (rest : List NewArchiveMember) :
    cmdLoop kind thin st (m :: rest) =
      match cmdStep kind thin st m rest with
      | none => none
      | some (.error e) => some (.error e)
      | some (.ok st') => cmdLoop kind thin st' rest := rfl

theorem cmdLoop_ok : ∀ (members : List NewArchiveMember) (kind : ArchiveKind)
    (thin : Bool) (st : LoopState),
    (∀ m ∈ members, ¬ member_size kind thin m > MAX_MEMBER_SIZE) →
    st.index + members.length ≤ 65535 →
    ∃ st', cmdLoop kind thin st members = some (.ok st') ∧
      st'.index = st.index + members.length := by
  intro members
  induction members with
  | nil => exact fun kind thin st _ _ => ⟨st, rfl, rfl⟩
  | cons m rest ih =>
    intro kind thin st hsz hidx
    simp only [List.length_cons] at hidx
    obtain ⟨st1, hst1, hidx1⟩ := @cmdStep_ok kind thin st m rest
      (hsz m (by simp)) (by omega)
    obtain ⟨st', hst', hidx'⟩ := ih kind thin st1
      (fun x hx => hsz x (by simp [hx]))
      (by omega)
    refine ⟨st', ?_, ?_⟩
    · rw [cmdLoop_cons, hst1]
      exact hst'
    · rw [hidx', hidx1]
      simp only [List.length_cons]
      omega

theorem cmdLoop_first_error : ∀ (members : List NewArchiveMember)
    (kind : ArchiveKind) (thin : Bool) (st : LoopState) (m₀ : NewArchiveMember),
    members.find? (fun m => decide (member_size kind thin m > MAX_MEMBER_SIZE)) = some m₀ →
    st.index + members.length ≤ 65535 →
    cmdLoop kind thin st members = some (.error (size_err_msg m₀.member_name)) := by
  intro members
  induction members with
  | nil => intro _ _ _ _ h; simp at h
  | cons m rest ih =>
    intro kind thin st m₀ hfind hidx
    simp only [List.length_cons] at hidx
    rw [List.find?_cons] at hfind
    by_cases hm : member_size kind thin m > MAX_MEMBER_SIZE
    · have hd : decide (member_size kind thin m > MAX_MEMBER_SIZE) = true := by
        simpa using hm
      rw [hd] at hfind
      simp only [Option.some.injEq] at hfind
      subst hfind
      rw [cmdLoop_cons, cmdStep_error hm]
    · have hd : decide (member_size kind thin m > MAX_MEMBER_SIZE) = false := by
        simpa using hm
      rw [hd] at hfind
      obtain ⟨st1, hst1, hidx1⟩ := @cmdStep_ok kind thin st m rest hm (by omega)
      rw [cmdLoop_cons, hst1]
      exact ih kind thin st1 m₀ hfind (by omega)

theorem cmdLoop_ne_none : ∀ (members : List NewArchiveMember) (kind : ArchiveKind)
    (thin : Bool) (st : LoopState),
    st.index + members.length ≤ 65535 →
    cmdLoop kind thin st members ≠ none := by
  intro members
  induction members with
  | nil => intro kind thin st _ h; simp [cmdLoop] at h
  | cons m rest ih =>
    intro kind thin st hidx h
    simp only [List.length_cons] at hidx
    rw [cmdLoop_cons] at h
    by_cases hm : member_size kind thin m > MAX_MEMBER_SIZE
    · rw [cmdStep_error hm] at h; simp at h
    · obtain ⟨st1, hst1, hidx1⟩ := @cmdStep_ok kind thin st m rest hm (by omega)
      rw [hst1] at h
      exact ih kind thin st1 (by omega) h

theorem cmdLoop_panic : ∀ (members : List NewArchiveMember) (kind : ArchiveKind)
    (thin : Bool) (st : LoopState),
    (∀ m ∈ members, ¬ member_size kind thin m > MAX_MEMBER_SIZE) →
    st.index + members.length > 65535 → st.index ≤ 65535 →
    cmdLoop kind thin st members = none := by
  intro members
  induction members with
  | nil => intro _ _ _ h1 h2 h3; simp at h2; omega
  | cons m rest ih =>
    intro kind thin st hsz hgt hle
    simp only [List.length_cons] at hgt
    by_cases hidx : st.index + 1 > 65535
    · rw [cmdLoop_cons, cmdStep_panic (hsz m (by simp)) hidx]
    · obtain ⟨st1, hst1, hidx1⟩ := @cmdStep_ok kind thin st m rest
        (hsz m (by simp)) hidx
      rw [cmdLoop_cons, hst1]
      exact ih kind thin st1 (fun x hx => hsz x (by simp [hx]))
        (by omega) (by omega)

theorem cmd_init_index (kind : ArchiveKind) (sm : Option SymMap)
    (members : List NewArchiveMember) : (cmd_init_state kind sm members).index = 0 := rfl

theorem cmdStep_ok_map {kind : ArchiveKind} {thin : Bool} {st : LoopState}
    {m : NewArchiveMember} {rest : List NewArchiveMember}
    (h : ¬ member_size kind thin m > MAX_MEMBER_SIZE) (hidx : ¬ st.index + 1 > 65535)
    (hmap : st.sym_map = none) :
    ∃ st', cmdStep kind thin st m rest = some (.ok st') ∧
      st'.index = st.index + 1 ∧ st'.sym_map = none := by
  unfold cmdStep
  rw [if_neg (by simpa [member_size] using h), if_neg hidx]
  by_cases haix : is_aix_big_archive kind = true
  · rw [if_pos haix]
    refine ⟨_, rfl, rfl, ?_⟩
    show (write_symbols m.buf (st.index + 1) st.sym_names st.sym_map
      m.object_reader).2.2 = none
    rw [hmap]
    rfl
  · rw [if_neg haix]
    refine ⟨_, rfl, rfl, ?_⟩
    show (write_symbols m.buf (st.index + 1) st.sym_names st.sym_map
      m.object_reader).2.2 = none
    rw [hmap]
    rfl

theorem cmdLoop_ok_map : ∀ (members : List NewArchiveMember) (kind : ArchiveKind)
    (thin : Bool) (st : LoopState),
    (∀ m ∈ members, ¬ member_size kind thin m > MAX_MEMBER_SIZE) →
    st.index + members.length ≤ 65535 →
    st.sym_map = none →
    ∃ st', cmdLoop kind thin st members = some (.ok st') ∧ st'.sym_map = none := by
  intro members
  induction members with
  | nil => exact fun kind thin st _ _ hmap => ⟨st, rfl, hmap⟩
  | cons m rest ih =>
    intro kind thin st hsz hidx hmap
    simp only [List.length_cons] at hidx
    obtain ⟨st1, hst1, hidx1, hmap1⟩ :=
      @cmdStep_ok_map kind thin st m rest (hsz m (by simp)) (by omega) hmap
    obtain ⟨st', hst', hmap'⟩ := ih kind thin st1
      (fun x hx => hsz x (by simp [hx])) (by omega) hmap1
    refine ⟨st', ?_, hmap'⟩
    rw [cmdLoop_cons, hst1]
    exact hst'

theorem compute_member_data_map_none {kind : ArchiveKind} {thin : Bool}
    {members : List NewArchiveMember}
    (hsz : ∀ m ∈ members, ¬ member_size kind thin m > MAX_MEMBER_SIZE)
    (hlen : members.length ≤ 65535) :
    ∃ r, compute_member_data kind thin none members = some (.ok r) ∧
      r.sym_map = none := by
  obtain ⟨st', hst', hsm⟩ := cmdLoop_ok_map members kind thin
    (cmd_init_state kind none members) hsz (by rw [cmd_init_index]; omega) rfl
  unfold compute_member_data
  rw [hst']
  exact ⟨_, rfl, hsm⟩

theorem compute_member_data_ok {kind : ArchiveKind} {thin : Bool}
    {sm : Option SymMap} {members : List NewArchiveMember}
    (hsz : ∀ m ∈ members, ¬ member_size kind thin m > MAX_MEMBER_SIZE)
    (hlen : members.length ≤ 65535) :
    ∃ r, compute_member_data kind thin sm members = some (.ok r) := by
  obtain ⟨st', hst', -⟩ := cmdLoop_ok members kind thin (cmd_init_state kind sm members)
    hsz (by rw [cmd_init_index]; omega)
  unfold compute_member_data
  rw [hst']
  exact ⟨_, rfl⟩

theorem compute_member_data_error {kind : ArchiveKind} {thin : Bool}
    {sm : Option SymMap} {members : List NewArchiveMember} {m₀ : NewArchiveMember}
    (hfind : members.find?
      (fun m => decide (member_size kind thin m > MAX_MEMBER_SIZE)) = some m₀)
    (hlen : members.length ≤ 65535) :
    compute_member_data kind thin sm members =
      some (.error (size_err_msg m₀.member_name)) := by
  unfold compute_member_data
  rw [cmdLoop_first_error members kind thin _ m₀ hfind (by rw [cmd_init_index]; omega)]

theorem compute_member_data_ne_none {kind : ArchiveKind} {thin : Bool}
    {sm : Option SymMap} {members : List NewArchiveMember}
    (hlen : members.length ≤ 65535) :
    compute_member_data kind thin sm members ≠ none := by
  unfold compute_member_data
  intro h
  cases hloop : cmdLoop kind thin (cmd_init_state kind sm members) members with
  | none =>
    exact cmdLoop_ne_none members kind thin _ (by rw [cmd_init_index]; omega) hloop
  | some r =>
    rw [hloop] at h
    cases r <;> simp at h

theorem compute_member_data_panic {kind : ArchiveKind} {thin : Bool}
    {sm : Option SymMap} {members : List NewArchiveMember}
    (hsz : ∀ m ∈ members, ¬ member_size kind thin m > MAX_MEMBER_SIZE)
    (hlen : members.length > 65535) :
    compute_member_data kind thin sm members = none := by
  unfold compute_member_data
  rw [cmdLoop_panic members kind thin _ hsz (by rw [cmd_init_index]; omega)
    (by rw [cmd_init_index]; omega)]

theorem effective_kind_of_non_coff (kind : ArchiveKind) (n : Nat)
    (hk : is_coff_archive kind = false) : effective_kind kind n = kind := by
  unfold effective_kind
  rw [if_neg (by simp [hk])]

theorem is_coff_promoted (kind : ArchiveKind) (hs lmho : Nat)
    (hk : is_coff_archive kind = false) :
    is_coff_archive (promoted_kind kind hs lmho) = false := by
  unfold promoted_kind
  split_ifs <;> first | rfl | exact hk

theorem write_prefix_flow_some (kind : ArchiveKind) (data : List MemberData)
    (sym_names : Bytes) (sym_map : SymMap) (stm : Option MemberData)
    (sts ns hs : Nat) (hk : is_coff_archive kind = false)
    (hec : sym_map.ec_map = []) :
    ∃ pre, write_prefix_flow kind data sym_names sym_map stm sts ns hs = some pre := by
  unfold write_prefix_flow
  simp only [hk, Bool.false_eq_true, if_false, hec, List.isEmpty_nil, Bool.not_true]
  exact ⟨_, rfl⟩

theorem exists_ok_flow {c : Prop} [Decidable c] (fO : Option Bytes) (mg B : Bytes)
    (h : ∃ pre, fO = some pre) :
    ∃ out,
      (if c then fO.map (fun pre => Except.ok (ε := List Char) (mg ++ pre))
       else some (.ok B)) = some (.ok out) := by
  obtain ⟨pre, hpre⟩ := h
  by_cases hc : c
  · refine ⟨mg ++ pre, ?_⟩
    rw [if_pos hc, hpre]
    rfl
  · exact ⟨B, by rw [if_neg hc]⟩

theorem flow_result_ne_error {c : Prop} [Decidable c] (fO : Option Bytes)
    (mg B : Bytes) (e : List Char) :
    (if c then fO.map (fun pre => Except.ok (ε := List Char) (mg ++ pre))
     else some (.ok B)) ≠ some (.error e) := by
  by_cases hc : c
  · rw [if_pos hc]
    cases fO <;> simp
  · rw [if_neg hc]
    simp

theorem thin_assert_neg {thin : Bool} {kind0 : ArchiveKind}
    (h : ¬ (thin = true ∧ is_bsd_like kind0 = true)) :
    (thin && is_bsd_like kind0) = false := by
  cases thin <;> cases hk : is_bsd_like kind0 <;> simp_all

theorem write_archive_ok {members : List NewArchiveMember} {kind0 : ArchiveKind}
    {thin is_ec : Bool}
    (hassert : ¬ (thin = true ∧ is_bsd_like kind0 = true))
    (hsz : ∀ m ∈ members,
      ¬ member_size (effective_kind kind0 members.length) thin m > MAX_MEMBER_SIZE)
    (hlen : members.length ≤ 65535)
    (hck : is_coff_archive (effective_kind kind0 members.length) = false) :
    ∃ out, write_archive_to_stream members kind0 thin is_ec = some (.ok out) := by
  simp only [write_archive_to_stream]
  rw [thin_assert_neg hassert]
  simp only [Bool.false_eq_true, if_false, hck]
  obtain ⟨r, hr, hrm⟩ := compute_member_data_map_none hsz hlen
  rw [hr]
  split
  · rename_i heq
    simp at heq
  · rename_i heq
    simp at heq
  · rename_i st heq
    simp only [Option.some.injEq, Except.ok.injEq] at heq
    subst heq
    simp only [hrm, Option.getD_none]
    exact exists_ok_flow _ _ _
      (write_prefix_flow_some _ _ _ _ _ _ _ _ (is_coff_promoted _ _ _ hck) rfl)

theorem write_archive_no_error {members : List NewArchiveMember} {kind0 : ArchiveKind}
    {thin is_ec : Bool}
    (hassert : ¬ (thin = true ∧ is_bsd_like kind0 = true))
    (hsz : ∀ m ∈ members,
      ¬ member_size (effective_kind kind0 members.length) thin m > MAX_MEMBER_SIZE)
    (hlen : members.length ≤ 65535) :
    ∀ e, write_archive_to_stream members kind0 thin is_ec ≠ some (.error e) := by
  intro e
  simp only [write_archive_to_stream]
  rw [thin_assert_neg hassert]
  simp only [Bool.false_eq_true, if_false]
  obtain ⟨r, hr⟩ := @compute_member_data_ok (effective_kind kind0 members.length)
    thin
    (if is_coff_archive (effective_kind kind0 members.length) then
      some { use_ec_map := is_ec, map := [], ec_map := [] } else none)
    members hsz hlen
  rw [hr]
  split
  · rename_i heq
    simp at heq
  · rename_i heq
    simp at heq
  · exact flow_result_ne_error _ _ _ _

theorem write_archive_error {members : List NewArchiveMember} {kind0 : ArchiveKind}
    {thin is_ec : Bool} {m₀ : NewArchiveMember}
    (hassert : ¬ (thin = true ∧ is_bsd_like kind0 = true))
    (hfind : members.find? (fun m =>
      decide (member_size (effective_kind kind0 members.length) thin m >
        MAX_MEMBER_SIZE)) = some m₀)
    (hlen : members.length ≤ 65535) :
    write_archive_to_stream members kind0 thin is_ec =
      some (.error (size_err_msg m₀.member_name)) := by
  simp only [write_archive_to_stream]
  rw [thin_assert_neg hassert]
  simp only [Bool.false_eq_true, if_false]
  rw [compute_member_data_error hfind hlen]

theorem write_archive_ne_none {members : List NewArchiveMember} {kind0 : ArchiveKind}
    {thin is_ec : Bool}
    (hassert : ¬ (thin = true ∧ is_bsd_like kind0 = true))
    (hlen : members.length ≤ 65535)
    (hck : is_coff_archive (effective_kind kind0 members.length) = false) :
    write_archive_to_stream members kind0 thin is_ec ≠ none := by
  cases hfind : members.find? (fun m =>
      decide (member_size (effective_kind kind0 members.length) thin m >
        MAX_MEMBER_SIZE)) with
  | some m₀ => rw [write_archive_error hassert hfind hlen]; simp
  | none =>
    have hsz : ∀ m ∈ members,
        ¬ member_size (effective_kind kind0 members.length) thin m > MAX_MEMBER_SIZE := by
      intro m hm
      have := List.find?_eq_none.mp hfind m hm
      simpa using this
    obtain ⟨out, hout⟩ := write_archive_ok hassert hsz hlen hck
    rw [hout]
    simp

theorem write_archive_none_iff {members : List NewArchiveMember} {kind0 : ArchiveKind}
    {thin is_ec : Bool} (hlen : members.length ≤ 65535)
    (hck : is_coff_archive (effective_kind kind0 members.length) = false) :
    write_archive_to_stream members kind0 thin is_ec = none ↔
      (thin = true ∧ is_bsd_like kind0 = true) := by
  constructor
  · intro h
    by_contra hc
    exact write_archive_ne_none hc hlen hck h
  · rintro ⟨ht, hb⟩
    simp only [write_archive_to_stream, ht, hb]
    rfl

/-! ## The claims -/

/-- **C2 (corrected). 64-bit promotion** (src/archive_writer.rs lines
877-909): the promotion leaves the kind unchanged below the `2^32` threshold
and for already-64-bit kinds; at or above the threshold `Darwin` becomes
`Darwin64` and every other non-64-bit kind — `Gnu`, but also `Bsd` and
`Coff` — becomes `Gnu64`. (The claim's "every other variant remains
unchanged" fails for `Bsd` and `Coff`.) -/
theorem c2_promotion (hs lmho : Nat) :
    (hs + lmho < 2 ^ 32 → ∀ k, promoted_kind k hs lmho = k) ∧
    (∀ k, is_64bit_kind k = true → promoted_kind k hs lmho = k) ∧
    (hs + lmho ≥ 2 ^ 32 →
      promoted_kind .Darwin hs lmho = .Darwin64 ∧
      promoted_kind .Gnu hs lmho = .Gnu64 ∧
      promoted_kind .Bsd hs lmho = .Gnu64 ∧
      promoted_kind .Coff hs lmho = .Gnu64) := by
  refine ⟨?_, ?_, ?_⟩
  · intro h k
    unfold promoted_kind
    split_ifs <;> first | rfl | omega
  · intro k hk
    unfold promoted_kind
    rw [hk]
    rfl
  · intro h
    refine ⟨?_, ?_, ?_, ?_⟩ <;>
      · unfold promoted_kind
        rw [if_pos (by decide), if_pos h]
        rfl

/-- The claim "every other variant remains unchanged" is false at `Bsd`:
above the threshold `Bsd` is promoted to `Gnu64`. -/
theorem c2_counterexample :
    promoted_kind ArchiveKind.Bsd (2 ^ 32) 0 = ArchiveKind.Gnu64 ∧
    ¬ (promoted_kind ArchiveKind.Bsd (2 ^ 32) 0 = ArchiveKind.Bsd) := by
  constructor
  · rfl
  · intro h
    exact absurd h (by decide)

theorem c2_promotion_witness :
    (2 ^ 32 + 0 ≥ 2 ^ 32) ∧
    (promoted_kind ArchiveKind.Darwin (2 ^ 32) 0 = ArchiveKind.Darwin64 ∧
     promoted_kind ArchiveKind.Gnu (2 ^ 32) 0 = ArchiveKind.Gnu64 ∧
     promoted_kind ArchiveKind.Bsd (2 ^ 32) 0 = ArchiveKind.Gnu64 ∧
     promoted_kind ArchiveKind.Coff (2 ^ 32) 0 = ArchiveKind.Gnu64) :=
  ⟨by omega, (c2_promotion (2 ^ 32) 0).2.2 (by omega)⟩

/-! ### C9: determinism -/

/-- Element-wise equivalence of archive members: equal fields, and
object-reader callbacks that agree on every input buffer. -/
def memberEquiv (a b : NewArchiveMember) : Prop :=
  a.buf = b.buf ∧ a.member_name = b.member_name ∧ a.mtime = b.mtime ∧
  a.uid = b.uid ∧ a.gid = b.gid ∧ a.perms = b.perms ∧
  (∀ x, a.object_reader.get_symbols x = b.object_reader.get_symbols x) ∧
  (∀ x, a.object_reader.is_64_bit_object_file x = b.object_reader.is_64_bit_object_file x) ∧
  (∀ x, a.object_reader.is_ec_object_file x = b.object_reader.is_ec_object_file x) ∧
  (∀ x, a.object_reader.get_xcoff_member_alignment x =
    b.object_reader.get_xcoff_member_alignment x)

theorem objectReader_eq {a b : ObjectReader}
    (h1 : ∀ x, a.get_symbols x = b.get_symbols x)
    (h2 : ∀ x, a.is_64_bit_object_file x = b.is_64_bit_object_file x)
    (h3 : ∀ x, a.is_ec_object_file x = b.is_ec_object_file x)
    (h4 : ∀ x, a.get_xcoff_member_alignment x = b.get_xcoff_member_alignment x) :
    a = b := by
  cases a
  cases b
  congr 1 <;> funext x
  · exact h1 x
  · exact h2 x
  · exact h3 x
  · exact h4 x

theorem memberEquiv_eq {a b : NewArchiveMember} (h : memberEquiv a b) : a = b := by
  obtain ⟨h1, h2, h3, h4, h5, h6, h7, h8, h9, h10⟩ := h
  cases a
  cases b
  simp only at h1 h2 h3 h4 h5 h6 h7 h8 h9 h10
  congr 1
  exact objectReader_eq h7 h8 h9 h10

/-- **C9 (confirmed). Determinism**: the model of `write_archive_to_stream`
is a pure function of `(variant, thin, is_ec, member list, object-reader
outputs)` — two calls with element-wise equivalent member lists produce
identical byte streams — and the only timestamp source, `now`, is the
constant 0 (src/archive_writer.rs lines 244-246); the source contains no
clock, randomness, or environment access. -/
theorem c9_determinism :
    (∀ (ms1 ms2 : List NewArchiveMember) (kind : ArchiveKind) (thin is_ec : Bool),
      List.Forall₂ memberEquiv ms1 ms2 →
      write_archive_to_stream ms1 kind thin is_ec =
        write_archive_to_stream ms2 kind thin is_ec) ∧
    now = 0 := by
  refine ⟨?_, rfl⟩
  intro ms1 ms2 kind thin is_ec h
  have heq : ms1 = ms2 := by
    induction h with
    | nil => rfl
    | cons hab _ ih => rw [memberEquiv_eq hab, ih]
  rw [heq]

/-- A reader that emits no symbols (a plain non-object member). -/
def sample_no_sym_reader : ObjectReader :=
  { get_symbols := fun _ => [], is_64_bit_object_file := fun _ => false,
    is_ec_object_file := fun _ => false, get_xcoff_member_alignment := fun _ => 2 }

def sample_member_a : NewArchiveMember :=
  { buf := [1, 2, 3], object_reader := sample_no_sym_reader,
    member_name := "a.o".data, mtime := 0, uid := 0, gid := 0, perms := 420 }

def sample_member_b : NewArchiveMember :=
  { buf := [4, 5], object_reader := sample_no_sym_reader,
    member_name := "b.o".data, mtime := 0, uid := 0, gid := 0, perms := 420 }

theorem c9_determinism_witness :
    List.Forall₂ memberEquiv [sample_member_a] [sample_member_a] ∧
    write_archive_to_stream [sample_member_a] ArchiveKind.Gnu false false =
      write_archive_to_stream [sample_member_a] ArchiveKind.Gnu false false := by
  have hfor : List.Forall₂ memberEquiv [sample_member_a] [sample_member_a] :=
    List.Forall₂.cons
      ⟨rfl, rfl, rfl, rfl, rfl, rfl, fun _ => rfl, fun _ => rfl, fun _ => rfl,
        fun _ => rfl⟩
      List.Forall₂.nil
  exact ⟨hfor, c9_determinism.1 _ _ _ _ _ hfor⟩

/-! ### C10: the thin/BSD-like assertion -/

/-- **C10 (confirmed). Implicit thin-mode precondition**: combining
`thin = true` with a BSD-like kind trips the
`assert!(!thin || !is_bsd_like(kind))` at the top of
`write_archive_to_stream` — the call panics (modelled as `none`) instead of
returning an error or writing output — and the BSD-like kinds are exactly
`Bsd`, `Darwin` and `Darwin64`, so thin mode with `Gnu`, `Gnu64`, `Coff` or
`AixBig` does not trigger this assertion. For non-COFF kinds this assertion
is moreover the only panic (so the implication is an equivalence there); a
COFF request, while never tripping this assertion, can still panic later on
the `u32` offset overflow in `write_symbol_map`, which is why the
equivalence clause excludes COFF. (The member-list bound keeps the
member-index panic out of scope.) -/
theorem c10_thin_bsd_assertion (members : List NewArchiveMember)
    (kind : ArchiveKind) (thin is_ec : Bool) (hlen : members.length ≤ 65535) :
    ((thin = true ∧ is_bsd_like kind = true) →
      write_archive_to_stream members kind thin is_ec = none) ∧
    (is_coff_archive kind = false →
      (write_archive_to_stream members kind thin is_ec = none ↔
        (thin = true ∧ is_bsd_like kind = true))) ∧
    (is_bsd_like kind = true ↔
      (kind = .Bsd ∨ kind = .Darwin ∨ kind = .Darwin64)) := by
  refine ⟨?_, ?_, ?_⟩
  · rintro ⟨ht, hb⟩
    simp only [write_archive_to_stream, ht, hb]
    rfl
  · intro hck0
    have hck : is_coff_archive (effective_kind kind members.length) = false := by
      rw [effective_kind_of_non_coff kind members.length hck0]
      exact hck0
    exact write_archive_none_iff hlen hck
  · cases kind <;> simp [is_bsd_like]

/-! ### C1: Darwin unique timestamps -/

/-- The per-member assignment loop for Darwin timestamps: starting from the
capped filename counts, each member takes one `next_unique_mtime` step (the
exact step `cmdStep` performs when `is_darwin kind`). -/
def assign_loop : List (List Char × Nat) → List (List Char) → List Nat
  | _, [] => []
  | fc, n :: t =>
    (next_unique_mtime fc n).1 :: assign_loop (next_unique_mtime fc n).2 t

/-- The mtimes emitted by `compute_member_data` for a Darwin archive, in
member order: `cmd_init_state` seeds `cap_counts (build_filename_count _)`
and `cmdStep` applies `next_unique_mtime` per member. -/
def darwin_member_mtimes (names : List (List Char)) : List Nat :=
  assign_loop (cap_counts (build_filename_count names)) names

theorem acGet_acAdd (fc : List (List Char × Nat)) (n x : List Char) :
    acGet (acAdd fc n) x = acGet fc x + (if x == n then 1 else 0) := by
  induction fc with
  | nil =>
    by_cases hxn : x = n
    · subst hxn; simp [acAdd, acGet]
    · have hnx : ¬ n = x := fun h => hxn h.symm
      simp [acAdd, acGet, hxn, hnx]
  | cons e t ih =>
    obtain ⟨k, c⟩ := e
    by_cases hkn : k = n
    · by_cases hxn : x = n
      · simp [acAdd, acGet, hkn, hxn]
      · have hnx : ¬ n = x := fun h => hxn h.symm
        simp [acAdd, acGet, hkn, hxn, hnx]
    · by_cases hkx : k = x
      · have hxn : ¬ x = n := fun h => hkn (hkx.trans h)
        have hnx : ¬ n = x := fun h => hxn h.symm
        simp [acAdd, acGet, hkn, hkx, hxn, hnx]
      · simp [acAdd, acGet, hkn, hkx, ih]

theorem acGet_cap_counts (m : List (List Char × Nat)) (x : List Char) :
    acGet (cap_counts m) x = if acGet m x > 1 then 1 else 0 := by
  induction m with
  | nil => simp [cap_counts, acGet]
  | cons e t ih =>
    obtain ⟨k, c⟩ := e
    have hcc : cap_counts ((k, c) :: t) = (k, if c > 1 then 1 else 0) :: cap_counts t :=
      rfl
    rw [hcc]
    by_cases hkx : k = x
    · subst hkx; simp [acGet]
    · simp [acGet, hkx, ih]

theorem acGet_foldl_acAdd : ∀ (l : List (List Char)) (acc : List (List Char × Nat))
    (x : List Char),
    acGet (l.foldl acAdd acc) x = acGet acc x + l.count x := by
  intro l
  induction l with
  | nil => simp
  | cons n t ih =>
    intro acc x
    rw [List.foldl_cons, ih, acGet_acAdd, List.count_cons]
    by_cases hxn : x = n
    · rw [if_pos (beq_iff_eq.mpr hxn), if_pos (beq_iff_eq.mpr hxn.symm)]
      omega
    · rw [if_neg (fun hb => hxn (beq_iff_eq.mp hb)),
          if_neg (fun hb => hxn (beq_iff_eq.mp hb).symm)]
      omega

theorem acGet_build (names : List (List Char)) (x : List Char) :
    acGet (build_filename_count names) x = names.count x := by
  unfold build_filename_count
  rw [acGet_foldl_acAdd]
  simp [acGet]

theorem next_unique_mtime_fst (fc : List (List Char × Nat)) (n : List Char) :
    (next_unique_mtime fc n).1 = acGet fc n := by
  show acGet (acAdd fc n) n - 1 = acGet fc n
  rw [acGet_acAdd]
  simp

theorem assign_loop_getD : ∀ (t : List (List Char)) (fc : List (List Char × Nat))
    (i : Nat), i < t.length →
    (assign_loop fc t).getD i 0 =
      acGet fc (t.getD i []) + (t.take i).count (t.getD i []) := by
  intro t
  induction t with
  | nil => intro fc i h; simp at h
  | cons n t ih =>
    intro fc i h
    cases i with
    | zero =>
      simp only [assign_loop, List.getD_cons_zero, List.take_zero, List.count_nil,
        Nat.add_zero]
      rw [next_unique_mtime_fst]
    | succ i =>
      simp only [assign_loop, List.getD_cons_succ, List.take_succ_cons]
      rw [ih _ i (by simp only [List.length_cons] at h; omega)]
      have hstep : (next_unique_mtime fc n).2 = acAdd fc n := rfl
      rw [hstep, acGet_acAdd, List.count_cons]
      by_cases hxn : t.getD i [] = n
      · rw [if_pos (beq_iff_eq.mpr hxn), if_pos (beq_iff_eq.mpr hxn.symm)]
        omega
      · rw [if_neg (fun hb => hxn (beq_iff_eq.mp hb)),
            if_neg (fun hb => hxn (beq_iff_eq.mp hb).symm)]
        omega

theorem count_take_succ_self : ∀ (l : List (List Char)) (i : Nat), i < l.length →
    (l.take (i + 1)).count (l.getD i []) = (l.take i).count (l.getD i []) + 1 := by
  intro l
  induction l with
  | nil => intro i h; simp at h
  | cons a t ih =>
    intro i h
    cases i with
    | zero => simp [List.count_cons]
    | succ i =>
      simp only [List.take_succ_cons, List.getD_cons_succ, List.count_cons]
      rw [ih i (by simp only [List.length_cons] at h; omega)]
      omega

theorem count_drop_ge_one : ∀ (l : List (List Char)) (i : Nat), i < l.length →
    1 ≤ (l.drop i).count (l.getD i []) := by
  intro l
  induction l with
  | nil => intro i h; simp at h
  | cons a t ih =>
    intro i h
    cases i with
    | zero => simp [List.count_cons]
    | succ i =>
      simp only [List.drop_succ_cons, List.getD_cons_succ]
      exact ih i (by simp only [List.length_cons] at h; omega)

/-- **C1 (corrected). Darwin unique-timestamp assignment**
(src/archive_writer.rs lines 654-697): in a Darwin archive, a member whose
name occurs more than once is emitted with a synthetic mtime equal to its
1-based ordinal among the occurrences of that name (so K duplicates get
mtimes 1, 2, …, K in input order), and a member with a unique name is
emitted with mtime 0 — its provided mtime is ignored (the assignment is a
function of the member names only). -/
theorem c1_darwin_mtimes (names : List (List Char)) (i : Nat)
    (h : i < names.length) :
    (darwin_member_mtimes names).getD i 0 =
      if names.count (names.getD i []) > 1 then
        (names.take (i + 1)).count (names.getD i [])
      else 0 := by
  unfold darwin_member_mtimes
  rw [assign_loop_getD names _ i h, acGet_cap_counts, acGet_build]
  by_cases hdup : names.count (names.getD i []) > 1
  · rw [if_pos hdup, if_pos hdup, count_take_succ_self names i h]
    omega
  · rw [if_neg hdup, if_neg hdup]
    have hsplit := List.take_append_drop i names
    have hcount : (names.take i ++ names.drop i).count (names.getD i []) =
        (names.take i).count (names.getD i []) +
        (names.drop i).count (names.getD i []) := by
      rw [List.count_append]
    rw [hsplit] at hcount
    have hge := count_drop_ge_one names i h
    omega

def sample_member_f1 : NewArchiveMember :=
  { buf := [1, 2, 3], object_reader := sample_no_sym_reader,
    member_name := "f.o".data, mtime := 1000, uid := 0, gid := 0, perms := 420 }

def sample_member_f2 : NewArchiveMember :=
  { buf := [4], object_reader := sample_no_sym_reader,
    member_name := "f.o".data, mtime := 2000, uid := 0, gid := 0, perms := 420 }

def sample_member_g : NewArchiveMember :=
  { buf := [5], object_reader := sample_no_sym_reader,
    member_name := "g.o".data, mtime := 7, uid := 0, gid := 0, perms := 420 }

/-- The 12-byte mtime fields (offset 16 of each BSD member header) produced
by `compute_member_data` for a Darwin archive. -/
def darwin_header_mtime_fields (members : List NewArchiveMember) :
    Option (List Bytes) :=
  match compute_member_data ArchiveKind.Darwin false none members with
  | some (.ok r) => some (r.ret.map (fun md => (md.header.drop 16).take 12))
  | _ => none

/-- Two Darwin members named `f.o` (provided mtimes 1000 and 2000) and one
named `g.o` (provided mtime 7) are emitted with mtimes 1, 2 and 0 — not the
claimed 0, 1 and 7. -/
theorem c1_counterexample :
    darwin_header_mtime_fields [sample_member_f1, sample_member_f2, sample_member_g] =
      some [cb (lj 12 (natDec 1)), cb (lj 12 (natDec 2)), cb (lj 12 (natDec 0))] ∧
    (some [cb (lj 12 (natDec 1)), cb (lj 12 (natDec 2)), cb (lj 12 (natDec 0))] ≠
      some [cb (lj 12 (natDec 0)), cb (lj 12 (natDec 1)), cb (lj 12 (natDec 7))]) := by
  constructor
  · decide
  · decide

theorem c1_darwin_mtimes_witness :
    (1 < (["f.o".data, "f.o".data] : List (List Char)).length) ∧
    ((darwin_member_mtimes ["f.o".data, "f.o".data]).getD 1 0 =
      if (["f.o".data, "f.o".data] : List (List Char)).count
          ((["f.o".data, "f.o".data] : List (List Char)).getD 1 []) > 1 then
        ((["f.o".data, "f.o".data] : List (List Char)).take 2).count
          ((["f.o".data, "f.o".data] : List (List Char)).getD 1 [])
      else 0) :=
  ⟨by decide, c1_darwin_mtimes ["f.o".data, "f.o".data] 1 (by decide)⟩

/-! ### C3: the Solaris 3-NUL workaround and symbol-table omission -/

/-- The block one object contributes to the symbol-name stream: each symbol
name followed by a NUL. -/
def sym_block (names : List Bytes) : Bytes :=
  names.foldl (fun acc nm => acc ++ nm ++ [0]) []

/-- The symbol-name stream accumulated across the member pass when no COFF
symbol map is in play (`sym_map = none`). -/
def sym_names_stream (members : List NewArchiveMember) : Bytes :=
  members.foldl
    (fun acc m => acc ++ sym_block (m.object_reader.get_symbols m.buf)) []

theorem sym_block_foldl : ∀ (t : List Bytes) (a : Bytes),
    t.foldl (fun acc nm => acc ++ nm ++ [0]) a = a ++ sym_block t := by
  intro t
  induction t with
  | nil => intro a; simp [sym_block]
  | cons n t ih =>
    intro a
    have h1 : sym_block (n :: t) =
        t.foldl (fun acc nm => acc ++ nm ++ [0]) (n ++ [0]) := rfl
    rw [List.foldl_cons, ih, h1, ih]
    simp [List.append_assoc]

theorem sym_names_stream_foldl : ∀ (members : List NewArchiveMember) (a : Bytes),
    members.foldl
      (fun acc m => acc ++ sym_block (m.object_reader.get_symbols m.buf)) a =
      a ++ sym_names_stream members := by
  intro members
  induction members with
  | nil => intro a; simp [sym_names_stream]
  | cons m rest ih =>
    intro a
    have h1 : sym_names_stream (m :: rest) =
        rest.foldl (fun acc x => acc ++ sym_block (x.object_reader.get_symbols x.buf))
          (sym_block (m.object_reader.get_symbols m.buf)) := rfl
    rw [List.foldl_cons, ih, h1, ih]
    simp [List.append_assoc]

theorem sym_names_stream_cons (m : NewArchiveMember) (rest : List NewArchiveMember) :
    sym_names_stream (m :: rest) =
      sym_block (m.object_reader.get_symbols m.buf) ++ sym_names_stream rest := by
  have h1 : sym_names_stream (m :: rest) =
      rest.foldl (fun acc x => acc ++ sym_block (x.object_reader.get_symbols x.buf))
        (sym_block (m.object_reader.get_symbols m.buf)) := rfl
  rw [h1, sym_names_stream_foldl]

theorem ws_foldl_snd : ∀ (names : List Bytes) (l0 : List Nat) (sn : Bytes),
    (names.foldl
      (fun (st : List Nat × Bytes) name =>
        (st.1 ++ [st.2.length], st.2 ++ name ++ [0])) (l0, sn)).2 =
      sn ++ sym_block names := by
  intro names
  induction names with
  | nil => intro l0 sn; simp [sym_block]
  | cons n t ih =>
    intro l0 sn
    simp only [List.foldl_cons]
    rw [ih]
    have h1 : sym_block (n :: t) =
        t.foldl (fun acc nm => acc ++ nm ++ [0]) (n ++ [0]) := rfl
    rw [h1, sym_block_foldl]
    simp [List.append_assoc]

theorem write_symbols_none (obj : Bytes) (idx : Nat) (sn : Bytes) (rd : ObjectReader) :
    (write_symbols obj idx sn none rd).2 =
      (sn ++ sym_block (rd.get_symbols obj), none) := by
  show ((((rd.get_symbols obj).foldl
      (fun (st : List Nat × Bytes) name =>
        (st.1 ++ [st.2.length], st.2 ++ name ++ [0])) ([], sn)).2 : Bytes),
      (none : Option SymMap)) = (sn ++ sym_block (rd.get_symbols obj), none)
  rw [ws_foldl_snd]

theorem cmdStep_ok_none {kind : ArchiveKind} {thin : Bool} {st : LoopState}
    {m : NewArchiveMember} {rest : List NewArchiveMember}
    (h : ¬ member_size kind thin m > MAX_MEMBER_SIZE) (hidx : ¬ st.index + 1 > 65535)
    (hmap : st.sym_map = none) :
    ∃ st', cmdStep kind thin st m rest = some (.ok st') ∧
      st'.index = st.index + 1 ∧ st'.sym_map = none ∧
      st'.sym_names = st.sym_names ++ sym_block (m.object_reader.get_symbols m.buf) ∧
      st'.has_object = true := by
  unfold cmdStep
  rw [if_neg (by simpa [member_size] using h), if_neg hidx]
  by_cases haix : is_aix_big_archive kind = true
  · rw [if_pos haix]
    refine ⟨_, rfl, rfl, ?_, ?_, rfl⟩
    · show (write_symbols m.buf (st.index + 1) st.sym_names st.sym_map
        m.object_reader).2.2 = none
      rw [hmap, write_symbols_none]
    · show (write_symbols m.buf (st.index + 1) st.sym_names st.sym_map
        m.object_reader).2.1 =
        st.sym_names ++ sym_block (m.object_reader.get_symbols m.buf)
      rw [hmap, write_symbols_none]
  · rw [if_neg haix]
    refine ⟨_, rfl, rfl, ?_, ?_, rfl⟩
    · show (write_symbols m.buf (st.index + 1) st.sym_names st.sym_map
        m.object_reader).2.2 = none
      rw [hmap, write_symbols_none]
    · show (write_symbols m.buf (st.index + 1) st.sym_names st.sym_map
        m.object_reader).2.1 =
        st.sym_names ++ sym_block (m.object_reader.get_symbols m.buf)
      rw [hmap, write_symbols_none]

theorem cmdLoop_stream : ∀ (members : List NewArchiveMember) (kind : ArchiveKind)
    (thin : Bool) (st : LoopState),
    (∀ m ∈ members, ¬ member_size kind thin m > MAX_MEMBER_SIZE) →
    st.index + members.length ≤ 65535 →
    st.sym_map = none →
    ∃ st', cmdLoop kind thin st members = some (.ok st') ∧
      st'.sym_names = st.sym_names ++ sym_names_stream members ∧
      st'.has_object = (st.has_object || !members.isEmpty) ∧
      st'.sym_map = none := by
  intro members
  induction members with
  | nil =>
    intro kind thin st _ _ hmap
    refine ⟨st, rfl, ?_, ?_, hmap⟩
    · simp [sym_names_stream]
    · simp
  | cons m rest ih =>
    intro kind thin st hsz hidx hmap
    simp only [List.length_cons] at hidx
    obtain ⟨st1, hst1, hidx1, hmap1, hsn1, hho1⟩ :=
      @cmdStep_ok_none kind thin st m rest (hsz m (by simp)) (by omega) hmap
    obtain ⟨st', hst', hsn', hho', hmap'⟩ := ih kind thin st1
      (fun x hx => hsz x (by simp [hx])) (by omega) hmap1
    refine ⟨st', ?_, ?_, ?_, hmap'⟩
    · rw [cmdLoop_cons, hst1]
      exact hst'
    · rw [hsn', hsn1, sym_names_stream_cons, List.append_assoc]
    · rw [hho', hho1]
      simp

theorem cb_ne_nil {s : List Char} (h : s ≠ []) : cb s ≠ [] := by
  intro hc
  apply h
  have hl := congrArg List.length hc
  rw [cb_length] at hl
  exact List.length_eq_zero.mp hl

theorem lj_length_ge (w : Nat) (s : List Char) : w ≤ (lj w s).length := by
  simp only [lj, List.length_append, List.length_replicate]
  omega

theorem print_bsd_member_header_ne_nil (pos : Nat) (name : List Char)
    (mtime uid gid perms size : Nat) :
    print_bsd_member_header pos name mtime uid gid perms size ≠ [] := by
  intro hc
  have hl := congrArg List.length hc
  simp only [print_bsd_member_header, List.length_append, List.length_cons,
    List.length_nil] at hl
  omega

theorem print_big_archive_member_header_ne_nil (name : List Char)
    (mtime uid gid perms size po no : Nat) :
    print_big_archive_member_header name mtime uid gid perms size po no ≠ [] := by
  intro hc
  have hl := congrArg List.length hc
  simp only [print_big_archive_member_header, List.length_append, List.length_cons,
    List.length_nil] at hl
  have h20 := lj_length_ge 20 (natDec size)
  omega

theorem print_gnu_small_member_header_ne_nil (name : List Char)
    (mtime uid gid perms size : Nat) :
    print_gnu_small_member_header name mtime uid gid perms size ≠ [] := by
  intro hc
  have hl := congrArg List.length hc
  simp only [print_gnu_small_member_header, List.length_append, List.length_nil] at hl
  have h16 := lj_length_ge 16 (name ++ ['/'])
  omega

theorem write_symbol_table_header_ne_nil (kind : ArchiveKind)
    (size pmo nmo pos : Nat) :
    write_symbol_table_header kind size pmo nmo pos ≠ [] := by
  unfold write_symbol_table_header
  by_cases hb : is_bsd_like kind = true
  · rw [if_pos hb]
    exact cb_ne_nil (print_bsd_member_header_ne_nil _ _ _ _ _ _ _)
  · rw [if_neg hb]
    by_cases ha : is_aix_big_archive kind = true
    · rw [if_pos ha]
      exact cb_ne_nil (print_big_archive_member_header_ne_nil _ _ _ _ _ _ _ _)
    · rw [if_neg ha]
      exact cb_ne_nil (print_gnu_small_member_header_ne_nil _ _ _ _ _ _)

theorem append5_ne_nil {α : Type} (a b c d e f : List α) (h : a ≠ []) :
    a ++ b ++ c ++ d ++ e ++ f ≠ [] := by
  intro hc
  exact h (List.append_eq_nil.mp (List.append_eq_nil.mp (List.append_eq_nil.mp
    (List.append_eq_nil.mp (List.append_eq_nil.mp hc).1).1).1).1).1

theorem write_symbol_table_eq_nil_iff (kind : ArchiveKind)
    (members : List MemberData) (st : Bytes) (mo ns pmo nmo : Nat)
    (b : Bool) (pos : Nat) :
    write_symbol_table kind members st mo ns pmo nmo b pos = [] ↔
      (st.isEmpty = true ∧ is_darwin kind = false ∧ is_coff_archive kind = false) := by
  unfold write_symbol_table
  by_cases hc : (st.isEmpty && !is_darwin kind && !is_coff_archive kind) = true
  · rw [if_pos hc]
    simp only [Bool.and_eq_true, Bool.not_eq_true'] at hc
    simp [hc.1.1, hc.1.2, hc.2]
  · rw [if_neg hc]
    constructor
    · intro h
      exact absurd h (append5_ne_nil _ _ _ _ _ _
        (write_symbol_table_header_ne_nil _ _ _ _ _))
    · intro ⟨h1, h2, h3⟩
      exact absurd (by rw [h1, h2, h3]; rfl) hc

/-- **C3 (corrected). The Solaris 3-NUL workaround and symbol-table
omission** (src/archive_writer.rs lines 769-797 and 391-406): `has_object`
is set unconditionally for every member, so the 3-byte `"\0\0\0"` workaround
is appended to the symbol-name stream exactly when the member list is
non-empty, the stream is otherwise empty, and the kind is not COFF —
regardless of whether any member actually had symbols. `write_symbol_table`
omits the table exactly when the stream handed to it is empty and the kind
is neither Darwin nor COFF; since the workaround refills an empty stream,
a GNU archive with at least one (even symbol-less) member does get a
symbol-table member. -/
theorem c3_solaris_workaround (kind : ArchiveKind) (thin : Bool)
    (members : List NewArchiveMember)
    (hsz : ∀ m ∈ members, ¬ member_size kind thin m > MAX_MEMBER_SIZE)
    (hlen : members.length ≤ 65535)
    (data : List MemberData) (sn : Bytes) (mo ns pmo nmo : Nat)
    (b : Bool) (pos : Nat) :
    (∃ r, compute_member_data kind thin none members = some (.ok r) ∧
        r.sym_names =
          (if members.isEmpty = false ∧ sym_names_stream members = [] ∧
              is_coff_archive kind = false
           then [0, 0, 0]
           else sym_names_stream members)) ∧
    (write_symbol_table kind data sn mo ns pmo nmo b pos = [] ↔
      (sn.isEmpty = true ∧ is_darwin kind = false ∧ is_coff_archive kind = false)) := by
  refine ⟨?_, write_symbol_table_eq_nil_iff kind data sn mo ns pmo nmo b pos⟩
  obtain ⟨st', hloop, hsn, hho, -⟩ := cmdLoop_stream members kind thin
    (cmd_init_state kind none members) hsz (by rw [cmd_init_index]; omega) rfl
  rw [show (cmd_init_state kind none members).sym_names = [] from rfl,
    List.nil_append] at hsn
  rw [show (cmd_init_state kind none members).has_object = false from rfl,
    Bool.false_or] at hho
  unfold compute_member_data
  rw [hloop]
  refine ⟨_, rfl, ?_⟩
  show (if st'.has_object && st'.sym_names.length == 0 && !is_coff_archive kind
    then st'.sym_names ++ [0, 0, 0] else st'.sym_names) = _
  rw [hsn, hho]
  by_cases h2 : sym_names_stream members = [] <;>
    by_cases h3 : is_coff_archive kind = false <;>
      by_cases h1 : members.isEmpty = false <;>
        simp [h1, h2, h3, List.length_eq_zero]

/-- Two symbol-less GNU members `a.o` and `b.o`: the output starts with
`"!<arch>\n"` but byte 8 opens the GNU symbol-table member header (`'/'`),
not the `a.o` member header (`'a'`) the claim predicts. -/
theorem c3_counterexample :
    (write_archive_to_stream [sample_member_a, sample_member_b] ArchiveKind.Gnu
        false false).map (Except.map (fun out => (out.take 8, out.getD 8 0))) =
      some (.ok (cb "!<arch>\n".data, 47)) ∧ (47 : Nat) ≠ ('a').toNat :=
  ⟨rfl, by decide⟩

theorem c3_solaris_workaround_witness :
    (∀ m ∈ [sample_member_a, sample_member_b],
        ¬ member_size ArchiveKind.Gnu false m > MAX_MEMBER_SIZE) ∧
    ([sample_member_a, sample_member_b] : List NewArchiveMember).length ≤ 65535 ∧
    ((∃ r, compute_member_data ArchiveKind.Gnu false none
          [sample_member_a, sample_member_b] = some (.ok r) ∧
        r.sym_names =
          (if ([sample_member_a, sample_member_b] :
                List NewArchiveMember).isEmpty = false ∧
              sym_names_stream [sample_member_a, sample_member_b] = [] ∧
              is_coff_archive ArchiveKind.Gnu = false
           then [0, 0, 0]
           else sym_names_stream [sample_member_a, sample_member_b])) ∧
      (write_symbol_table ArchiveKind.Gnu [] [0, 0, 0] 0 0 0 0 false 8 = [] ↔
        (([0, 0, 0] : Bytes).isEmpty = true ∧ is_darwin ArchiveKind.Gnu = false ∧
          is_coff_archive ArchiveKind.Gnu = false))) :=
  ⟨by decide, by decide,
    c3_solaris_workaround ArchiveKind.Gnu false [sample_member_a, sample_member_b]
      (by decide) (by decide) [] [0, 0, 0] 0 0 0 0 false 8⟩

/-! ### C4: member-name string-table deduplication -/

/-- The bytes `print_member_header` appends to the long-name table for one
name: NUL-terminated for COFF, `"/\n"`-terminated otherwise. -/
def entry_bytes (kind : ArchiveKind) (name : List Char) : Bytes :=
  if is_coff_archive kind then cb name ++ [0] else cb (name ++ ['/', '\n'])

/-- Spec-side reading of the dedup map: the table is the concatenation of one
entry per recorded key, in order. -/
def mnTable (kind : ArchiveKind) : List (List Char × Nat) → Bytes
  | [] => []
  | (n, _) :: t => entry_bytes kind n ++ mnTable kind t

/-- Spec-side reading of the recorded offsets: each key's offset is the
length of the table built before it. -/
def mnWF (kind : ArchiveKind) : Nat → List (List Char × Nat) → Prop
  | _, [] => True
  | p, (n, off) :: t => off = p ∧ mnWF kind (p + (entry_bytes kind n).length) t

/-- The combined string-table/dedup-map effect of `print_member_header` over
a whole name list, from the empty initial state of `compute_member_data`. -/
def run_entries (kind : ArchiveKind) (thin : Bool) (names : List (List Char)) :
    Bytes × List (List Char × Nat) :=
  names.foldl (member_name_entry kind thin) ([], [])

/-- The thin-mode long-name table: one `name ++ "/\n"` entry for every
member occurrence, duplicates included. -/
def thin_name_table (names : List (List Char)) : Bytes :=
  names.foldl (fun acc x => acc ++ cb (x ++ ['/', '\n'])) []

theorem mne_skip {kind : ArchiveKind} (hk : is_bsd_like kind = false) {thin : Bool}
    {stmn : Bytes × List (List Char × Nat)} {name : List Char}
    (hq : use_string_table thin name = false) :
    member_name_entry kind thin stmn name = stmn := by
  unfold member_name_entry
  rw [if_neg (by simp [hk]), if_pos (by simp [hq])]

theorem mne_thin {kind : ArchiveKind} (hk : is_bsd_like kind = false)
    {stmn : Bytes × List (List Char × Nat)} {name : List Char} :
    member_name_entry kind true stmn name =
      (stmn.1 ++ cb (name ++ ['/', '\n']), stmn.2) := by
  unfold member_name_entry
  rw [if_neg (by simp [hk]), if_neg (by simp [use_string_table]), if_pos rfl]

theorem mne_found {kind : ArchiveKind} (hk : is_bsd_like kind = false)
    {stmn : Bytes × List (List Char × Nat)} {name : List Char} {off : Nat}
    (hq : use_string_table false name = true)
    (hl : lookupName stmn.2 name = some off) :
    member_name_entry kind false stmn name = stmn := by
  unfold member_name_entry
  rw [if_neg (by simp [hk]), if_neg (by simp [hq]), if_neg (by simp), hl]

theorem mne_new {kind : ArchiveKind} (hk : is_bsd_like kind = false)
    {stmn : Bytes × List (List Char × Nat)} {name : List Char}
    (hq : use_string_table false name = true)
    (hl : lookupName stmn.2 name = none) :
    member_name_entry kind false stmn name =
      (stmn.1 ++ entry_bytes kind name, stmn.2 ++ [(name, stmn.1.length)]) := by
  unfold member_name_entry entry_bytes
  rw [if_neg (by simp [hk]), if_neg (by simp [hq]), if_neg (by simp), hl]

theorem lookupName_eq_none : ∀ (mn : List (List Char × Nat)) (n : List Char),
    lookupName mn n = none ↔ n ∉ mn.map Prod.fst := by
  intro mn n
  induction mn with
  | nil => simp [lookupName]
  | cons e t ih =>
    obtain ⟨k, v⟩ := e
    by_cases hkn : k = n
    · subst hkn; simp [lookupName]
    · simp only [lookupName, List.map_cons]
      rw [if_neg (fun hb => hkn (beq_iff_eq.mp hb)), ih]
      constructor
      · intro h hmem
        rcases List.mem_cons.mp hmem with h1 | h1
        · exact hkn h1.symm
        · exact h h1
      · intro h hmem
        exact h (List.mem_cons_of_mem _ hmem)

theorem mnTable_snoc (kind : ArchiveKind) : ∀ (mn : List (List Char × Nat))
    (n : List Char) (off : Nat),
    mnTable kind (mn ++ [(n, off)]) = mnTable kind mn ++ entry_bytes kind n := by
  intro mn
  induction mn with
  | nil => intro n off; simp [mnTable]
  | cons e t ih =>
    intro n off
    obtain ⟨k, v⟩ := e
    have hc : mnTable kind (((k, v) :: t) ++ [(n, off)]) =
        entry_bytes kind k ++ mnTable kind (t ++ [(n, off)]) := rfl
    rw [hc, ih]
    simp [mnTable, List.append_assoc]

theorem mnWF_snoc (kind : ArchiveKind) : ∀ (mn : List (List Char × Nat))
    (p : Nat) (n : List Char),
    mnWF kind p mn → mnWF kind p (mn ++ [(n, p + (mnTable kind mn).length)]) := by
  intro mn
  induction mn with
  | nil =>
    intro p n _
    simp [mnWF, mnTable]
  | cons e t ih =>
    intro p n h
    obtain ⟨k, v⟩ := e
    simp only [List.cons_append, mnWF] at h ⊢
    obtain ⟨ho, ht⟩ := h
    refine ⟨ho, ?_⟩
    have harr : p + (mnTable kind ((k, v) :: t)).length =
        p + (entry_bytes kind k).length + (mnTable kind t).length := by
      simp only [mnTable, List.length_append]
      omega
    rw [harr]
    exact ih (p + (entry_bytes kind k).length) n ht

theorem mne_inv {kind : ArchiveKind} (hk : is_bsd_like kind = false)
    (stmn : Bytes × List (List Char × Nat)) (name : List Char)
    (h1 : stmn.1 = mnTable kind stmn.2) (h2 : mnWF kind 0 stmn.2)
    (h3 : (stmn.2.map Prod.fst).Nodup) :
    (member_name_entry kind false stmn name).1 =
        mnTable kind (member_name_entry kind false stmn name).2 ∧
      mnWF kind 0 (member_name_entry kind false stmn name).2 ∧
      ((member_name_entry kind false stmn name).2.map Prod.fst).Nodup := by
  by_cases hq : use_string_table false name = true
  · cases hl : lookupName stmn.2 name with
    | some off =>
      rw [mne_found hk hq hl]
      exact ⟨h1, h2, h3⟩
    | none =>
      rw [mne_new hk hq hl]
      refine ⟨?_, ?_, ?_⟩
      · rw [mnTable_snoc, h1]
      · rw [h1]
        simpa using mnWF_snoc kind stmn.2 0 name h2
      · have hnin : name ∉ stmn.2.map Prod.fst := (lookupName_eq_none stmn.2 name).mp hl
        simp only [List.map_append, List.map_cons, List.map_nil]
        refine List.Nodup.append h3 (List.nodup_singleton name) ?_
        intro x hx hx2
        simp only [List.mem_singleton] at hx2
        subst hx2
        exact hnin hx
  · rw [mne_skip hk (by simpa using hq)]
    exact ⟨h1, h2, h3⟩

theorem fold_mne_inv (kind : ArchiveKind) (hk : is_bsd_like kind = false) :
    ∀ (names : List (List Char)) (stmn : Bytes × List (List Char × Nat)),
    stmn.1 = mnTable kind stmn.2 → mnWF kind 0 stmn.2 →
    (stmn.2.map Prod.fst).Nodup →
    (names.foldl (member_name_entry kind false) stmn).1 =
        mnTable kind (names.foldl (member_name_entry kind false) stmn).2 ∧
      mnWF kind 0 (names.foldl (member_name_entry kind false) stmn).2 ∧
      ((names.foldl (member_name_entry kind false) stmn).2.map Prod.fst).Nodup := by
  intro names
  induction names with
  | nil => intro stmn h1 h2 h3; exact ⟨h1, h2, h3⟩
  | cons x t ih =>
    intro stmn h1 h2 h3
    obtain ⟨g1, g2, g3⟩ := mne_inv hk stmn x h1 h2 h3
    simpa only [List.foldl_cons] using ih (member_name_entry kind false stmn x) g1 g2 g3

theorem fold_mne_keys (kind : ArchiveKind) (hk : is_bsd_like kind = false) :
    ∀ (names : List (List Char)) (stmn : Bytes × List (List Char × Nat))
    (x : List Char),
    x ∈ (names.foldl (member_name_entry kind false) stmn).2.map Prod.fst ↔
      (x ∈ stmn.2.map Prod.fst ∨ (x ∈ names ∧ use_string_table false x = true)) := by
  intro names
  induction names with
  | nil => intro stmn x; simp
  | cons nm t ih =>
    intro stmn x
    simp only [List.foldl_cons]
    rw [ih]
    by_cases hq : use_string_table false nm = true
    · cases hl : lookupName stmn.2 nm with
      | some off =>
        rw [mne_found hk hq hl]
        have hmem : nm ∈ stmn.2.map Prod.fst := by
          by_contra hcon
          have hnone := (lookupName_eq_none stmn.2 nm).mpr hcon
          rw [hnone] at hl
          exact Option.noConfusion hl
        constructor
        · rintro (h | ⟨ht, hqx⟩)
          · exact Or.inl h
          · exact Or.inr ⟨List.mem_cons_of_mem _ ht, hqx⟩
        · rintro (h | ⟨hmem2, hq2⟩)
          · exact Or.inl h
          · rcases List.mem_cons.mp hmem2 with rfl | h
            · exact Or.inl hmem
            · exact Or.inr ⟨h, hq2⟩
      | none =>
        rw [mne_new hk hq hl]
        simp only [List.map_append, List.map_cons, List.map_nil, List.mem_append,
          List.mem_singleton]
        constructor
        · rintro ((h | rfl) | ⟨ht, hqx⟩)
          · exact Or.inl h
          · exact Or.inr ⟨List.mem_cons_self _ _, hq⟩
          · exact Or.inr ⟨List.mem_cons_of_mem _ ht, hqx⟩
        · rintro (h | ⟨hmem2, hq2⟩)
          · exact Or.inl (Or.inl h)
          · rcases List.mem_cons.mp hmem2 with rfl | h
            · exact Or.inl (Or.inr rfl)
            · exact Or.inr ⟨h, hq2⟩
    · rw [mne_skip hk (by simpa using hq)]
      constructor
      · rintro (h | ⟨ht, hqx⟩)
        · exact Or.inl h
        · exact Or.inr ⟨List.mem_cons_of_mem _ ht, hqx⟩
      · rintro (h | ⟨hmem2, hq2⟩)
        · exact Or.inl h
        · rcases List.mem_cons.mp hmem2 with rfl | h
          · exact absurd hq2 hq
          · exact Or.inr ⟨h, hq2⟩

theorem run_entries_stable (kind : ArchiveKind) (hk : is_bsd_like kind = false)
    (names : List (List Char)) (n : List Char) (hmem : n ∈ names) :
    run_entries kind false (names ++ [n]) = run_entries kind false names := by
  unfold run_entries
  rw [List.foldl_append]
  simp only [List.foldl_cons, List.foldl_nil]
  by_cases hq : use_string_table false n = true
  · cases hl : lookupName (names.foldl (member_name_entry kind false) ([], [])).2 n with
    | some off => exact mne_found hk hq hl
    | none =>
      exfalso
      have hnin := (lookupName_eq_none _ n).mp hl
      apply hnin
      rw [fold_mne_keys kind hk names ([], []) n]
      exact Or.inr ⟨hmem, hq⟩
  · exact mne_skip hk (by simpa using hq)

theorem thin_name_table_foldl : ∀ (names : List (List Char)) (a : Bytes),
    names.foldl (fun acc x => acc ++ cb (x ++ ['/', '\n'])) a =
      a ++ thin_name_table names := by
  intro names
  induction names with
  | nil => intro a; simp [thin_name_table]
  | cons x t ih =>
    intro a
    have h1 : thin_name_table (x :: t) =
        t.foldl (fun acc y => acc ++ cb (y ++ ['/', '\n'])) (cb (x ++ ['/', '\n'])) := rfl
    rw [List.foldl_cons, ih, h1, ih]
    simp [List.append_assoc]

theorem fold_mne_thin (kind : ArchiveKind) (hk : is_bsd_like kind = false) :
    ∀ (names : List (List Char)) (st : Bytes) (mn : List (List Char × Nat)),
    names.foldl (member_name_entry kind true) (st, mn) =
      (st ++ thin_name_table names, mn) := by
  intro names
  induction names with
  | nil => intro st mn; simp [thin_name_table]
  | cons x t ih =>
    intro st mn
    simp only [List.foldl_cons]
    rw [mne_thin hk, ih]
    have h1 : thin_name_table (x :: t) =
        t.foldl (fun acc y => acc ++ cb (y ++ ['/', '\n'])) (cb (x ++ ['/', '\n'])) := rfl
    rw [h1, thin_name_table_foldl]
    simp [List.append_assoc]

/-- **C4 (corrected). Member-name string-table deduplication**
(src/archive_writer.rs lines 159-216): in NON-thin mode, the long-name
table holds exactly one entry per distinct qualifying name
(`use_string_table false`: length ≥ 16 or containing `/`), the recorded
offsets are the table positions of those first copies (so later members
with the same name reference the first copy's offset through the
`member_names` map), and re-processing an already-seen name changes
nothing. In THIN mode, however, no deduplication happens at all: every
member occurrence appends its own `name ++ "/\n"` entry and the dedup map
stays empty. -/
theorem c4_name_table_dedup (kind : ArchiveKind) (names : List (List Char))
    (n : List Char) (hk : is_bsd_like kind = false) :
    (((run_entries kind false names).2.map Prod.fst).Nodup ∧
      (n ∈ (run_entries kind false names).2.map Prod.fst ↔
        (n ∈ names ∧ use_string_table false n = true)) ∧
      (run_entries kind false names).1 =
        mnTable kind (run_entries kind false names).2 ∧
      mnWF kind 0 (run_entries kind false names).2 ∧
      (n ∈ names →
        run_entries kind false (names ++ [n]) = run_entries kind false names)) ∧
    ((run_entries kind true names).1 = thin_name_table names ∧
      (run_entries kind true names).2 = []) := by
  obtain ⟨g1, g2, g3⟩ := fold_mne_inv kind hk names ([], []) rfl trivial (by simp)
  refine ⟨⟨g3, ?_, g1, g2,
    fun hmem => run_entries_stable kind hk names n hmem⟩, ?_, ?_⟩
  · show n ∈ (names.foldl (member_name_entry kind false) ([], [])).2.map Prod.fst ↔ _
    rw [fold_mne_keys kind hk names ([], []) n]
    simp
  · show (names.foldl (member_name_entry kind true) ([], [])).1 = thin_name_table names
    rw [fold_mne_thin kind hk names [] []]
    simp
  · show (names.foldl (member_name_entry kind true) ([], [])).2 = []
    rw [fold_mne_thin kind hk names [] []]

def sample_member_long : NewArchiveMember :=
  { buf := [1], object_reader := sample_no_sym_reader,
    member_name := "0123456789abcdef".data, mtime := 0, uid := 0, gid := 0,
    perms := 420 }

/-- Two THIN GNU members with the same 16-character name: the `//` table
contains TWO copies of the name, refuting "thin mode deduplicates alike". -/
theorem c4_counterexample :
    (compute_member_data ArchiveKind.Gnu true none
        [sample_member_long, sample_member_long]).map
      (Except.map (fun r => r.string_table)) =
      some (.ok (cb "0123456789abcdef/\n".data ++ cb "0123456789abcdef/\n".data)) ∧
    cb "0123456789abcdef/\n".data ++ cb "0123456789abcdef/\n".data ≠
      cb "0123456789abcdef/\n".data :=
  ⟨rfl, by decide⟩

theorem c4_name_table_dedup_witness :
    is_bsd_like ArchiveKind.Gnu = false ∧
    ((((run_entries ArchiveKind.Gnu false
          ["0123456789abcdef".data, "0123456789abcdef".data]).2.map Prod.fst).Nodup ∧
      ("0123456789abcdef".data ∈ (run_entries ArchiveKind.Gnu false
          ["0123456789abcdef".data, "0123456789abcdef".data]).2.map Prod.fst ↔
        ("0123456789abcdef".data ∈
            (["0123456789abcdef".data, "0123456789abcdef".data] : List (List Char)) ∧
          use_string_table false "0123456789abcdef".data = true)) ∧
      (run_entries ArchiveKind.Gnu false
          ["0123456789abcdef".data, "0123456789abcdef".data]).1 =
        mnTable ArchiveKind.Gnu (run_entries ArchiveKind.Gnu false
          ["0123456789abcdef".data, "0123456789abcdef".data]).2 ∧
      mnWF ArchiveKind.Gnu 0 (run_entries ArchiveKind.Gnu false
          ["0123456789abcdef".data, "0123456789abcdef".data]).2 ∧
      ("0123456789abcdef".data ∈
          (["0123456789abcdef".data, "0123456789abcdef".data] : List (List Char)) →
        run_entries ArchiveKind.Gnu false
            (["0123456789abcdef".data, "0123456789abcdef".data] ++
              ["0123456789abcdef".data]) =
          run_entries ArchiveKind.Gnu false
            ["0123456789abcdef".data, "0123456789abcdef".data])) ∧
    ((run_entries ArchiveKind.Gnu true
          ["0123456789abcdef".data, "0123456789abcdef".data]).1 =
        thin_name_table ["0123456789abcdef".data, "0123456789abcdef".data] ∧
      (run_entries ArchiveKind.Gnu true
          ["0123456789abcdef".data, "0123456789abcdef".data]).2 = [])) :=
  ⟨rfl, c4_name_table_dedup ArchiveKind.Gnu
    ["0123456789abcdef".data, "0123456789abcdef".data] "0123456789abcdef".data rfl⟩

/-! ### C7: BSD member-header emission -/

/-- **C7 (corrected). BSD member-header emission**
(src/archive_writer.rs lines 97-120, src/alignment.rs lines 7-21): writing a
BSD-like member header at archive position `pos` with inline `name` emits,
PROVIDED every numeric field fits its fixed width (`mtime < 10^12`,
`perms < 8^8`, `N < 10^13`, `N + size < 10^10` for `N = name.length + pad`),
a 60-byte fixed header — name field `#1/<N>` (bytes 0-15), mtime field
(bytes 16-27), size field `N + size` (bytes 48-57) — followed by the name
and exactly `pad` NUL bytes, where `pad = (-(pos + 60 + name.length)) mod 8`
re-aligns the byte after the padded name to 8. Rust's `{:<W}` never
truncates, so when a field overflows its width the fixed part grows beyond
60 bytes instead. -/
theorem c7_bsd_header (pos : Nat) (name : List Char)
    (mtime uid gid perms size : Nat)
    (hmtime : mtime < 10 ^ 12) (hperms : perms < 8 ^ 8)
    (hN : name.length + offset_to_alignment (pos + 60 + name.length) 8 < 10 ^ 13)
    (hsz : name.length + offset_to_alignment (pos + 60 + name.length) 8 + size
      < 10 ^ 10) :
    (print_bsd_member_header pos name mtime uid gid perms size).length =
        60 + name.length + offset_to_alignment (pos + 60 + name.length) 8 ∧
    (print_bsd_member_header pos name mtime uid gid perms size).take 16 =
        ['#', '1', '/'] ++ lj 13 (natDec
          (name.length + offset_to_alignment (pos + 60 + name.length) 8)) ∧
    ((print_bsd_member_header pos name mtime uid gid perms size).drop 16).take 12 =
        lj 12 (natDec mtime) ∧
    ((print_bsd_member_header pos name mtime uid gid perms size).drop 48).take 10 =
        lj 10 (natDec
          (name.length + offset_to_alignment (pos + 60 + name.length) 8 + size)) ∧
    (print_bsd_member_header pos name mtime uid gid perms size).drop 60 =
        name ++ List.replicate (offset_to_alignment (pos + 60 + name.length) 8)
          (Char.ofNat 0) ∧
    offset_to_alignment (pos + 60 + name.length) 8 =
        (8 - (pos + 60 + name.length) % 8) % 8 ∧
    (pos + 60 + name.length + offset_to_alignment (pos + 60 + name.length) 8) % 8
        = 0 := by
  set pad := offset_to_alignment (pos + 60 + name.length) 8 with hpad
  have h13 : (lj 13 (natDec (name.length + pad))).length = 13 :=
    lj_length_of_le (natDec_length_le 13 (by omega) _ hN)
  have h12 : (lj 12 (natDec mtime)).length = 12 :=
    lj_length_of_le (natDec_length_le 12 (by omega) _ hmtime)
  have h6u : (lj 6 (natDec (uid % 1000000))).length = 6 :=
    lj_length_of_le (natDec_length_le 6 (by omega) _ (by
      have hpow : (10 : Nat) ^ 6 = 1000000 := by norm_num
      rw [hpow]
      omega))
  have h6g : (lj 6 (natDec (gid % 1000000))).length = 6 :=
    lj_length_of_le (natDec_length_le 6 (by omega) _ (by
      have hpow : (10 : Nat) ^ 6 = 1000000 := by norm_num
      rw [hpow]
      omega))
  have h8 : (lj 8 (natOct perms)).length = 8 :=
    lj_length_of_le (natOct_length_le 8 (by omega) _ hperms)
  have h10 : (lj 10 (natDec (name.length + pad + size))).length = 10 :=
    lj_length_of_le (natDec_length_le 10 (by omega) _ hsz)
  have hstruct : print_bsd_member_header pos name mtime uid gid perms size =
      ['#', '1', '/'] ++ lj 13 (natDec (name.length + pad)) ++
        print_rest_of_member_header mtime uid gid perms (name.length + pad + size) ++
        name ++ List.replicate pad (Char.ofNat 0) := by
    rw [hpad]
    rfl
  have hA : ((['#', '1', '/'] : List Char) ++
      lj 13 (natDec (name.length + pad))).length = 16 := by
    simp [h13]
  have hflat : print_bsd_member_header pos name mtime uid gid perms size =
      (['#', '1', '/'] ++ lj 13 (natDec (name.length + pad))) ++
        (lj 12 (natDec mtime) ++ (lj 6 (natDec (uid % 1000000)) ++
          (lj 6 (natDec (gid % 1000000)) ++ (lj 8 (natOct perms) ++
            (lj 10 (natDec (name.length + pad + size)) ++ (['`', '\n'] ++
              (name ++ List.replicate pad (Char.ofNat 0)))))))) := by
    rw [hstruct]
    simp [print_rest_of_member_header, List.append_assoc]
  have hL48 : (((((['#', '1', '/'] ++ lj 13 (natDec (name.length + pad))) ++
      lj 12 (natDec mtime)) ++ lj 6 (natDec (uid % 1000000))) ++
      lj 6 (natDec (gid % 1000000))) ++ lj 8 (natOct perms)).length = 48 := by
    simp [h13, h12, h6u, h6g, h8]
  have hflat48 : print_bsd_member_header pos name mtime uid gid perms size =
      (((((['#', '1', '/'] ++ lj 13 (natDec (name.length + pad))) ++
        lj 12 (natDec mtime)) ++ lj 6 (natDec (uid % 1000000))) ++
        lj 6 (natDec (gid % 1000000))) ++ lj 8 (natOct perms)) ++
        (lj 10 (natDec (name.length + pad + size)) ++ (['`', '\n'] ++
          (name ++ List.replicate pad (Char.ofNat 0)))) := by
    rw [hstruct]
    simp [print_rest_of_member_header, List.append_assoc]
  have hL60 : (((((((['#', '1', '/'] ++ lj 13 (natDec (name.length + pad))) ++
      lj 12 (natDec mtime)) ++ lj 6 (natDec (uid % 1000000))) ++
      lj 6 (natDec (gid % 1000000))) ++ lj 8 (natOct perms)) ++
      lj 10 (natDec (name.length + pad + size))) ++ ['`', '\n']).length = 60 := by
    simp [h13, h12, h6u, h6g, h8, h10]
  have hflat60 : print_bsd_member_header pos name mtime uid gid perms size =
      (((((((['#', '1', '/'] ++ lj 13 (natDec (name.length + pad))) ++
        lj 12 (natDec mtime)) ++ lj 6 (natDec (uid % 1000000))) ++
        lj 6 (natDec (gid % 1000000))) ++ lj 8 (natOct perms)) ++
        lj 10 (natDec (name.length + pad + size))) ++ ['`', '\n']) ++
        (name ++ List.replicate pad (Char.ofNat 0)) := by
    rw [hstruct]
    simp [print_rest_of_member_header, List.append_assoc]
  refine ⟨?_, ?_, ?_, ?_, ?_, ?_, ?_⟩
  · rw [hstruct]
    simp only [print_rest_of_member_header, List.length_append, List.length_replicate,
      List.length_cons, List.length_nil, h13, h12, h6u, h6g, h8, h10]
  · rw [hflat, List.take_left' hA]
  · rw [hflat, List.drop_left' hA]
    exact List.take_left' h12
  · rw [hflat48, List.drop_left' hL48]
    exact List.take_left' h10
  · rw [hflat60, List.drop_left' hL60]
  · rw [hpad]
    unfold offset_to_alignment align_to
    omega
  · rw [hpad]
    unfold offset_to_alignment align_to
    omega

/-- A 1-byte name at position 0 with payload size 9,999,999,996 (within the
member-size cap for non-Darwin kinds): `N + size = 10^10` overflows the
10-character size field, so the emitted header is 65 bytes, not the
`60 + 1 + 3 = 64` the unconditional 60-byte claim predicts. -/
theorem c7_counterexample :
    (print_bsd_member_header 0 ['x'] 0 0 0 0 9999999996).length = 65 ∧
    (65 : Nat) ≠ 60 + 1 + offset_to_alignment (0 + 60 + 1) 8 :=
  ⟨by decide, by decide⟩

theorem c7_bsd_header_witness :
    ((5 : Nat) < 10 ^ 12) ∧ ((420 : Nat) < 8 ^ 8) ∧
    (("m.o".data : List Char).length +
      offset_to_alignment (0 + 60 + ("m.o".data : List Char).length) 8 < 10 ^ 13) ∧
    (("m.o".data : List Char).length +
      offset_to_alignment (0 + 60 + ("m.o".data : List Char).length) 8 + 4
        < 10 ^ 10) ∧
    ((print_bsd_member_header 0 "m.o".data 5 7 9 420 4).length =
        60 + ("m.o".data : List Char).length +
          offset_to_alignment (0 + 60 + ("m.o".data : List Char).length) 8 ∧
      (print_bsd_member_header 0 "m.o".data 5 7 9 420 4).take 16 =
        ['#', '1', '/'] ++ lj 13 (natDec (("m.o".data : List Char).length +
          offset_to_alignment (0 + 60 + ("m.o".data : List Char).length) 8)) ∧
      ((print_bsd_member_header 0 "m.o".data 5 7 9 420 4).drop 16).take 12 =
        lj 12 (natDec 5) ∧
      ((print_bsd_member_header 0 "m.o".data 5 7 9 420 4).drop 48).take 10 =
        lj 10 (natDec (("m.o".data : List Char).length +
          offset_to_alignment (0 + 60 + ("m.o".data : List Char).length) 8 + 4)) ∧
      (print_bsd_member_header 0 "m.o".data 5 7 9 420 4).drop 60 =
        "m.o".data ++ List.replicate
          (offset_to_alignment (0 + 60 + ("m.o".data : List Char).length) 8)
          (Char.ofNat 0) ∧
      offset_to_alignment (0 + 60 + ("m.o".data : List Char).length) 8 =
        (8 - (0 + 60 + ("m.o".data : List Char).length) % 8) % 8 ∧
      (0 + 60 + ("m.o".data : List Char).length +
        offset_to_alignment (0 + 60 + ("m.o".data : List Char).length) 8) % 8 = 0) :=
  ⟨by decide, by decide, by decide, by decide,
    c7_bsd_header 0 "m.o".data 5 7 9 420 4 (by decide) (by decide) (by decide)
      (by decide)⟩

/-! ### C8: member-size overflow -/

theorem member_size_ge_buf (kind : ArchiveKind) (thin : Bool)
    (m : NewArchiveMember) : m.buf.length ≤ member_size kind thin m := by
  unfold member_size
  exact Nat.le_add_right _ _

/-- **C8 (confirmed). Member-size overflow is a hard error**
(src/archive_writer.rs lines 699-705, src/archive.rs `MAX_MEMBER_SIZE`): if
some member's payload exceeds 9,999,999,999 bytes then the size check fires;
the write returns the error "Archive member {name} is too big" naming the
first member whose payload plus Darwin alignment padding exceeds the cap,
and aborts; when every member's payload plus padding is within the cap no
size-overflow error (indeed no `Err` at all) is produced, and for non-COFF
kinds the write succeeds outright. (The success clause excludes COFF
because a cap-legal COFF member of 2^32 or more bytes still panics on the
`u32` offset overflow in `write_symbol_map` — a panic, not an error. The
hypotheses rule out the unrelated thin/BSD-like assertion and 16-bit
member-index panics.) -/
theorem c8_size_overflow (members : List NewArchiveMember) (kind : ArchiveKind)
    (thin is_ec : Bool)
    (hassert : ¬ (thin = true ∧ is_bsd_like kind = true))
    (hlen : members.length ≤ 65535) :
    ((∃ m ∈ members, m.buf.length > MAX_MEMBER_SIZE) →
      (members.find? (fun m => decide (member_size (effective_kind kind members.length)
        thin m > MAX_MEMBER_SIZE))).isSome) ∧
    (∀ m₀, members.find? (fun m => decide (member_size (effective_kind kind members.length)
        thin m > MAX_MEMBER_SIZE)) = some m₀ →
      write_archive_to_stream members kind thin is_ec =
        some (.error (size_err_msg m₀.member_name)) ∧
      member_size (effective_kind kind members.length) thin m₀ > MAX_MEMBER_SIZE) ∧
    (members.find? (fun m => decide (member_size (effective_kind kind members.length)
        thin m > MAX_MEMBER_SIZE)) = none →
      (∀ e, write_archive_to_stream members kind thin is_ec ≠ some (.error e)) ∧
      (is_coff_archive kind = false →
        ∃ out, write_archive_to_stream members kind thin is_ec = some (.ok out))) := by
  refine ⟨?_, ?_, ?_⟩
  · rintro ⟨m, hm, hbuf⟩
    rw [List.find?_isSome]
    refine ⟨m, hm, ?_⟩
    have := member_size_ge_buf (effective_kind kind members.length) thin m
    simp only [decide_eq_true_eq]
    omega
  · intro m₀ hfind
    refine ⟨write_archive_error hassert hfind hlen, ?_⟩
    have := List.find?_some hfind
    simpa using this
  · intro hfind
    have hsz : ∀ m ∈ members,
        ¬ member_size (effective_kind kind members.length) thin m > MAX_MEMBER_SIZE := by
      intro m hm
      have := List.find?_eq_none.mp hfind m hm
      simpa using this
    refine ⟨write_archive_no_error hassert hsz hlen, ?_⟩
    intro hck0
    have hck : is_coff_archive (effective_kind kind members.length) = false := by
      rw [effective_kind_of_non_coff kind members.length hck0]
      exact hck0
    exact write_archive_ok hassert hsz hlen hck

theorem c8_size_overflow_witness :
    (¬ (false = true ∧ is_bsd_like ArchiveKind.Gnu = true) ∧
      ([sample_member_a] : List NewArchiveMember).length ≤ 65535) ∧
    (((∃ m ∈ [sample_member_a], m.buf.length > MAX_MEMBER_SIZE) →
      ([sample_member_a].find? (fun m =>
        decide (member_size (effective_kind ArchiveKind.Gnu [sample_member_a].length)
          false m > MAX_MEMBER_SIZE))).isSome) ∧
    (∀ m₀, [sample_member_a].find? (fun m =>
        decide (member_size (effective_kind ArchiveKind.Gnu [sample_member_a].length)
          false m > MAX_MEMBER_SIZE)) = some m₀ →
      write_archive_to_stream [sample_member_a] ArchiveKind.Gnu false false =
        some (.error (size_err_msg m₀.member_name)) ∧
      member_size (effective_kind ArchiveKind.Gnu [sample_member_a].length) false m₀ >
        MAX_MEMBER_SIZE) ∧
    ([sample_member_a].find? (fun m =>
        decide (member_size (effective_kind ArchiveKind.Gnu [sample_member_a].length)
          false m > MAX_MEMBER_SIZE)) = none →
      (∀ e, write_archive_to_stream [sample_member_a] ArchiveKind.Gnu false false ≠
        some (.error e)) ∧
      (is_coff_archive ArchiveKind.Gnu = false →
        ∃ out, write_archive_to_stream [sample_member_a] ArchiveKind.Gnu false false =
          some (.ok out)))) :=
  ⟨⟨by decide, by decide⟩,
    c8_size_overflow [sample_member_a] ArchiveKind.Gnu false false
      (by decide) (by decide)⟩

/-! ### C5: the COFF member-count cap -/

theorem is_darwin_effective_coff (n : Nat) :
    is_darwin (effective_kind ArchiveKind.Coff n) = false := by
  unfold effective_kind
  split <;> rfl

/-- **C5 (corrected). COFF member-count cap** (src/archive_writer.rs lines
815-819): a COFF request for more than 0xFFFE members behaves exactly like
the same request with the GNU variant — the kind is replaced by `Gnu` before
any member processing, so no COFF symbol map is emitted — and a request for
at most 0xFFFE members keeps the COFF variant; non-COFF kinds are never
downgraded. (As the counterexample shows, with 0x10000 or more members the
write panics on the 16-bit member index instead of producing a GNU archive,
so the equal behaviour is a panic on both sides there.) -/
theorem c5_coff_cap :
    (∀ (members : List NewArchiveMember) (thin is_ec : Bool),
      members.length > 0xfffe →
      write_archive_to_stream members ArchiveKind.Coff thin is_ec =
        write_archive_to_stream members ArchiveKind.Gnu thin is_ec) ∧
    (∀ n, n ≤ 0xfffe → effective_kind ArchiveKind.Coff n = ArchiveKind.Coff) ∧
    (∀ (kind : ArchiveKind) (n : Nat), is_coff_archive kind = false →
      effective_kind kind n = kind) := by
  refine ⟨?_, ?_, ?_⟩
  · intro members thin is_ec hlen
    have heffC : effective_kind ArchiveKind.Coff members.length = ArchiveKind.Gnu := by
      unfold effective_kind
      rw [if_pos (by simp [is_coff_archive, hlen])]
    have heffG : effective_kind ArchiveKind.Gnu members.length = ArchiveKind.Gnu := by
      unfold effective_kind
      rw [if_neg (by simp [is_coff_archive])]
    simp only [write_archive_to_stream, heffC, heffG,
      show is_bsd_like ArchiveKind.Coff = false from rfl,
      show is_bsd_like ArchiveKind.Gnu = false from rfl]
  · intro n hn
    unfold effective_kind
    rw [if_neg (by simp [is_coff_archive]; omega)]
  · intro kind n hk
    unfold effective_kind
    rw [if_neg (by simp [hk])]

theorem write_archive_panic {members : List NewArchiveMember} {kind0 : ArchiveKind}
    {thin is_ec : Bool}
    (hassert : ¬ (thin = true ∧ is_bsd_like kind0 = true))
    (hsz : ∀ m ∈ members,
      ¬ member_size (effective_kind kind0 members.length) thin m > MAX_MEMBER_SIZE)
    (hlen : members.length > 65535) :
    write_archive_to_stream members kind0 thin is_ec = none := by
  simp only [write_archive_to_stream]
  rw [thin_assert_neg hassert]
  simp only [Bool.false_eq_true, if_false]
  rw [compute_member_data_panic hsz hlen]

/-- The claim "silently written as GNU, no error returned" fails at 0x10000
members: the 1-based member index no longer fits in the `u16` handed to
`write_symbols`, and the conversion's `unwrap` panics (for the downgraded
COFF request just as for a plain GNU request). -/
theorem sample_member_size_ok (kind : ArchiveKind) (thin : Bool) :
    ¬ member_size kind thin sample_member_a > MAX_MEMBER_SIZE := by
  cases kind <;> cases thin <;> decide

theorem c5_counterexample :
    write_archive_to_stream (List.replicate 65536 sample_member_a)
      ArchiveKind.Coff false false = none ∧
    (65536 > 0xfffe) := by
  constructor
  · apply write_archive_panic
    · intro h
      exact absurd h.1 (by decide)
    · intro m hm
      rw [List.eq_of_mem_replicate hm]
      exact sample_member_size_ok _ _
    · rw [List.length_replicate]
      omega
  · decide

theorem c5_coff_cap_witness :
    ((List.replicate 65535 sample_member_a).length > 0xfffe) ∧
    write_archive_to_stream (List.replicate 65535 sample_member_a)
        ArchiveKind.Coff false false =
      write_archive_to_stream (List.replicate 65535 sample_member_a)
        ArchiveKind.Gnu false false :=
  ⟨by rw [List.length_replicate]; omega,
    c5_coff_cap.1 (List.replicate 65535 sample_member_a) false false
      (by rw [List.length_replicate]; omega)⟩

theorem c10_thin_bsd_assertion_witness :
    (([] : List NewArchiveMember).length ≤ 65535) ∧
    (((true = true ∧ is_bsd_like ArchiveKind.Bsd = true) →
      write_archive_to_stream [] ArchiveKind.Bsd true true = none) ∧
    (is_coff_archive ArchiveKind.Bsd = false →
      (write_archive_to_stream [] ArchiveKind.Bsd true true = none ↔
        (true = true ∧ is_bsd_like ArchiveKind.Bsd = true))) ∧
    (is_bsd_like ArchiveKind.Bsd = true ↔
      (ArchiveKind.Bsd = .Bsd ∨ ArchiveKind.Bsd = .Darwin ∨
        ArchiveKind.Bsd = .Darwin64))) :=
  ⟨by decide, c10_thin_bsd_assertion [] ArchiveKind.Bsd true true (by decide)⟩

end ArArchiveWriter
